import Mathlib

/-!
Shallow embedding of the DataTables KeepConditions plugin
(src/dataTables.keepConditions.js, class `KeepConditions`) and proofs about
its fragment codec, condition registry, and controller operations.

JavaScript strings are modelled as `List Char`; JS numbers that hold integral
values are modelled as `Int` (or `Nat` where the source can only produce
non-negative values).  Fallible operations are modelled with `Option`.
-/

set_option maxHeartbeats 1000000
set_option maxRecDepth 100000
set_option linter.unusedVariables false

namespace KC

/-! ### Character-list utilities modelling JS string primitives -/

/-- Model of JS `String.prototype.split` with a single-character separator:
`"".split(c) = [""]`, and separators delimit (possibly empty) fields. -/
def splitOnChar (sep : Char) : List Char → List (List Char)
  | [] => [[]]
  | c :: rest =>
    let r := splitOnChar sep rest
    if c = sep then [] :: r else (c :: r.headD []) :: r.tail

/-- Model of JS `Array.prototype.join` with a single-character separator. -/
def joinWith (sep : Char) : List (List Char) → List Char
  | [] => []
  | [p] => p
  | p :: q :: ps => p ++ sep :: joinWith sep (q :: ps)

/-! ### Decimal rendering and parsing (JS number-to-string and `parseInt`) -/

def digitChar (n : Nat) : Char := Char.ofNat (48 + n)

/-- Structural-recursion scaffold for `natToDec`: the fuel strictly bounds
the argument, so the zero-fuel branch is never reached. -/
def natToDecFuel : Nat → Nat → List Char
  | 0, _ => []
  | fuel + 1, n =>
    if n < 10 then [digitChar n]
    else natToDecFuel fuel (n / 10) ++ [digitChar (n % 10)]

/-- Decimal rendering of a natural number, as JS string coercion produces. -/
def natToDec (n : Nat) : List Char := natToDecFuel (n + 1) n

/-- Decimal rendering of an integer (JS string coercion of an integral number). -/
def intToDec (i : Int) : List Char :=
  if i < 0 then '-' :: natToDec i.natAbs else natToDec i.toNat

def isDigitCh (c : Char) : Bool := 48 ≤ c.toNat && c.toNat ≤ 57

def digitVal (c : Char) : Nat := c.toNat - 48

def decValue (ds : List Char) : Nat := ds.foldl (fun a c => a * 10 + digitVal c) 0

/-- Model of JS `parseInt(s)` restricted to the decimal strings this plugin
produces: an optional sign followed by a maximal run of digits; `none`
models `NaN`. -/
def parseIntJS (s : List Char) : Option Int :=
  match s with
  | [] => none
  | c :: rest =>
    if c = '-' then
      let ds := rest.takeWhile isDigitCh
      if ds = [] then none else some (-(decValue ds : Int))
    else
      let ds := (c :: rest).takeWhile isDigitCh
      if ds = [] then none else some ((decValue ds : Int))

/-! ### Percent-encoding codec: models of the JS built-ins
`encodeURIComponent` / `decodeURIComponent` used by the `search` condition. -/

/-- Upper-case hex digit, as `encodeURIComponent` emits. -/
def hexDigitChar (n : Nat) : Char :=
  if n < 10 then digitChar n else Char.ofNat (65 + n - 10)

def hexVal? (c : Char) : Option Nat :=
  if 48 ≤ c.toNat ∧ c.toNat ≤ 57 then some (c.toNat - 48)
  else if 65 ≤ c.toNat ∧ c.toNat ≤ 70 then some (c.toNat - 55)
  else if 97 ≤ c.toNat ∧ c.toNat ≤ 102 then some (c.toNat - 87)
  else none

def hexByte? (h1 h2 : Char) : Option Nat :=
  match hexVal? h1, hexVal? h2 with
  | some a, some b => some (a * 16 + b)
  | _, _ => none

/-- UTF-8 encoding of one Unicode scalar value, as the byte list that
`encodeURIComponent` percent-escapes. -/
def utf8Bytes (c : Char) : List Nat :=
  let n := c.toNat
  if n < 128 then [n]
  else if n < 2048 then [192 + n / 64, 128 + n % 64]
  else if n < 65536 then [224 + n / 4096, 128 + n / 64 % 64, 128 + n % 64]
  else [240 + n / 262144, 128 + n / 4096 % 64, 128 + n / 64 % 64, 128 + n % 64]

/-- Characters `encodeURIComponent` leaves unescaped:
`A-Z a-z 0-9 - _ . ! ~ * ' ( )` (39 is the apostrophe code point). -/
def isUnreserved (c : Char) : Bool :=
  (65 ≤ c.toNat && c.toNat ≤ 90) || (97 ≤ c.toNat && c.toNat ≤ 122) ||
  (48 ≤ c.toNat && c.toNat ≤ 57) ||
  c = '-' || c = '_' || c = '.' || c = '!' || c = '~' || c = '*' ||
  c = '(' || c = ')' || c.toNat = 39

def pctByte (b : Nat) : List Char := ['%', hexDigitChar (b / 16), hexDigitChar (b % 16)]

def encChar (c : Char) : List Char :=
  if isUnreserved c then [c] else ((utf8Bytes c).map pctByte).flatten

/-- Model of JS `encodeURIComponent`. -/
def encodeURIComponentJS (s : List Char) : List Char := (s.map encChar).flatten

/-- One step of `decodeURIComponent`: decode a single character (a literal
character, or one complete percent-escaped UTF-8 sequence) off the front of
the input, returning it with the remaining input; `none` models a `URIError`. -/
def decodeStep : List Char → Option (Char × List Char)
  | [] => none
  | c :: rest =>
    if c = '%' then
      match rest with
      | h1 :: h2 :: rest2 =>
        match hexByte? h1 h2 with
        | none => none
        | some b =>
          if b < 128 then some (Char.ofNat b, rest2)
          else if b < 192 then none
          else if b < 224 then
            match rest2 with
            | p3 :: h3 :: h4 :: rest3 =>
              if p3 = '%' then
                match hexByte? h3 h4 with
                | some b2 =>
                  if 128 ≤ b2 ∧ b2 < 192 then
                    some (Char.ofNat ((b - 192) * 64 + (b2 - 128)), rest3)
                  else none
                | none => none
              else none
            | _ => none
          else if b < 240 then
            match rest2 with
            | p3 :: h3 :: h4 :: p5 :: h5 :: h6 :: rest3 =>
              if p3 = '%' ∧ p5 = '%' then
                match hexByte? h3 h4, hexByte? h5 h6 with
                | some b2, some b3 =>
                  if (128 ≤ b2 ∧ b2 < 192) ∧ (128 ≤ b3 ∧ b3 < 192) then
                    some (Char.ofNat ((b - 224) * 4096 + (b2 - 128) * 64 + (b3 - 128)),
                      rest3)
                  else none
                | _, _ => none
              else none
            | _ => none
          else if b < 248 then
            match rest2 with
            | p3 :: h3 :: h4 :: p5 :: h5 :: h6 :: p7 :: h7 :: h8 :: rest3 =>
              if p3 = '%' ∧ p5 = '%' ∧ p7 = '%' then
                match hexByte? h3 h4, hexByte? h5 h6, hexByte? h7 h8 with
                | some b2, some b3, some b4 =>
                  if (128 ≤ b2 ∧ b2 < 192) ∧ (128 ≤ b3 ∧ b3 < 192)
                      ∧ (128 ≤ b4 ∧ b4 < 192) then
                    some (Char.ofNat ((b - 240) * 262144 + (b2 - 128) * 4096
                      + (b3 - 128) * 64 + (b4 - 128)), rest3)
                  else none
                | _, _, _ => none
              else none
            | _ => none
          else none
      | _ => none
    else
      some (c, rest)

/-- Recursion scaffold for `decodeURIComponentJS`.  Each successful
`decodeStep` consumes at least one input character, so fuel equal to the
input length always suffices; the fuel is purely a termination device. -/
def decodeLoop : Nat → List Char → Option (List Char)
  | _, [] => some []
  | 0, _ :: _ => none
  | fuel + 1, c0 :: rest0 =>
    match decodeStep (c0 :: rest0) with
    | none => none
    | some (c, rest) => (decodeLoop fuel rest).map (c :: ·)

/-- Model of JS `decodeURIComponent`; `none` models a thrown `URIError`. -/
def decodeURIComponentJS (s : List Char) : Option (List Char) := decodeLoop s.length s

/-! ### Colorder run-length compression
(`conditions.colorder.newHashVal`, src lines 1233–1319) and its
decompression (`conditions.colorder.onLoad`, src lines 1187–1221). -/

/-- A compiled element of the `result` array in `colorder.newHashVal`:
either a lone number, a two-element collection `a.b`, or a longer
collection compiled to `a-b`. -/
inductive ColTok where
  | num : Int → ColTok
  | pair : Int → Int → ColTok
  | range : Int → Int → ColTok
deriving DecidableEq, Repr

/-- `lastInCol(i)` from the source: `collection[collection.length - i]`. -/
def lastInCol (coll : List Int) (i : Nat) : Int := coll.getD (coll.length - i) 0

/-- `compileColl()` from the source: a 2-element collection becomes
`first.second`, anything else `first-last`. -/
def compileColl (coll : List Int) : ColTok :=
  if coll.length = 2 then ColTok.pair (coll.getD 0 0) (coll.getD 1 0)
  else ColTok.range (coll.getD 0 0) (lastInCol coll 1)

/-- Fold state of the `$.each(sequence, ...)` loop in `colorder.newHashVal`. -/
structure ColSt where
  result : List ColTok
  coll : List Int
  prev : Option Int
deriving Repr

/-- One iteration of the `$.each(sequence, ...)` loop in `colorder.newHashVal`. -/
def colStep (st : ColSt) (s : Int) : ColSt :=
  match st.prev with
  | none => { st with result := st.result ++ [ColTok.num s], prev := some s }
  | some prev =>
    if st.coll.length > 0 then
      if lastInCol st.coll 1 > lastInCol st.coll 2 ∧ s = lastInCol st.coll 1 + 1 then
        { st with coll := st.coll ++ [s], prev := some s }
      else if lastInCol st.coll 1 < lastInCol st.coll 2 ∧ s = lastInCol st.coll 1 - 1 then
        { st with coll := st.coll ++ [s], prev := some s }
      else
        { result := st.result ++ [compileColl st.coll, ColTok.num s], coll := [],
          prev := some s }
    else
      if s = prev + 1 ∨ s = prev - 1 then
        { result := st.result.dropLast, coll := [prev, s], prev := some s }
      else
        { st with result := st.result ++ [ColTok.num s], prev := some s }

/-- The compiled `result` array of `colorder.newHashVal` (before joining). -/
def colCompressTokens (seq : List Int) : List ColTok :=
  let fin := seq.foldl colStep ⟨[], [], none⟩
  if fin.coll.length > 0 then fin.result ++ [compileColl fin.coll] else fin.result

def renderColTok : ColTok → List Char
  | ColTok.num s => intToDec s
  | ColTok.pair a b => intToDec a ++ '.' :: intToDec b
  | ColTok.range a b => intToDec a ++ '-' :: intToDec b

/-- `colorder.newHashVal`: compress the column order and join with `.`. -/
def colorderNewHashVal (seq : List Int) : List Char :=
  joinWith '.' ((colCompressTokens seq).map renderColTok)

/-- The two expansion loops in `colorder.onLoad`: `a` down to `b` when
`a > b`, else `a` up to `b`. -/
def expandRangeJS (a b : Int) : List Int :=
  if a > b then (List.range (a - b + 1).toNat).map (fun k : Nat => a - k)
  else (List.range (b - a + 1).toNat).map (fun k : Nat => a + k)

/-- Parsing of one dot-separated piece in `colorder.onLoad`: a piece
containing `-` is expanded as a sequence, otherwise parsed as a single
number.  (`parseIntJS = none` models `NaN`, which makes the JS expansion
loops run zero times; it is never hit on tokens this plugin writes.) -/
def parseColTok (s : List Char) : List Int :=
  if s.contains '-' then
    let spl := splitOnChar '-' s
    match parseIntJS (spl.getD 0 []), parseIntJS (spl.getD 1 []) with
    | some a, some b => expandRangeJS a b
    | _, _ => []
  else [(parseIntJS s).getD 0]

/-- The `hashColOrder` list computed by `colorder.onLoad` from the hash
component: split on `.`, expand `-` pieces, parse all as integers. -/
def colorderParse (s : List Char) : List Int :=
  ((splitOnChar '.' s).map parseColTok).flatten

/-- Semantics of a compiled token as the column-index sequence that
`colorder.onLoad` reconstructs from its rendering. -/
def colTokExpand : ColTok → List Int
  | ColTok.num s => [s]
  | ColTok.pair a b => [a, b]
  | ColTok.range a b => expandRangeJS a b

def colTokExpandList (toks : List ColTok) : List Int := (toks.map colTokExpand).flatten

/-- Loop invariant relating the fold state of `colorder.newHashVal` to the
already-consumed portion of the input sequence. -/
def ColInv (consumed : List Int) (st : ColSt) : Prop :=
  (colTokExpandList st.result ++ st.coll = consumed)
  ∧ (st.coll = [] ∨ ∃ a b, a ≠ b ∧ st.coll = expandRangeJS a b)
  ∧ (st.coll = [] →
      (st.result = [] ∧ st.prev = none ∧ consumed = [])
      ∨ (∃ r p, st.prev = some p ∧ st.result = r ++ [ColTok.num p]))
  ∧ (st.prev = none → st.result = [] ∧ st.coll = [] ∧ consumed = [])

/-! ### Condition registry (`KeepConditions.conditions`, src lines 951–1446) -/

inductive Cond where
  | search | length | page | colvis | scroller | colorder | select | order
deriving DecidableEq, Repr

/-- Registry insertion order of the conditions object. -/
def condRegistry : List Cond :=
  [Cond.search, Cond.length, Cond.page, Cond.colvis, Cond.scroller,
   Cond.colorder, Cond.select, Cond.order]

/-- The `key` property of each condition. -/
def condKey : Cond → Char
  | Cond.search => 'f'
  | Cond.length => 'l'
  | Cond.page => 'p'
  | Cond.colvis => 'v'
  | Cond.scroller => 's'
  | Cond.colorder => 'c'
  | Cond.select => 'e'
  | Cond.order => 'o'

/-- Condition names, as used in settings and `_enabledConditions`. -/
def condName : Cond → List Char
  | Cond.search => "search".toList
  | Cond.length => "length".toList
  | Cond.page => "page".toList
  | Cond.colvis => "colvis".toList
  | Cond.scroller => "scroller".toList
  | Cond.colorder => "colorder".toList
  | Cond.select => "select".toList
  | Cond.order => "order".toList

/-- `nameByKey` resolution against the fixed registry. -/
def condOfKey (k : Char) : Option Cond := condRegistry.find? (fun c => condKey c == k)

/-- The `event` property of each condition (one or several DT event names). -/
def condEvents : Cond → List (List Char)
  | Cond.search => ["search.dt".toList]
  | Cond.length => ["length.dt".toList]
  | Cond.page => ["page.dt".toList]
  | Cond.colvis => ["column-visibility.dt".toList]
  | Cond.scroller => ["draw.dt".toList]
  | Cond.colorder => ["column-reorder.dt".toList]
  | Cond.select => ["select".toList, "deselect".toList, "selectItems".toList]
  | Cond.order => ["order.dt".toList]

/-! #### `_keyMap` (src lines 391–401): builds `ret[con.key] = name` over the
registry.  A JS object assignment silently overwrites an existing key. -/

/-- JS object property assignment on a single-character-keyed object:
update in place if the key exists, else append. -/
def keyMapInsert (m : List (Char × List Char)) (key : Char) (name : List Char) :
    List (Char × List Char) :=
  match m with
  | [] => [(key, name)]
  | (k, v) :: rest =>
    if k = key then (k, name) :: rest else (k, v) :: keyMapInsert rest key name

/-- `_keyMap()`: fold the `(name, key)` pairs of a conditions object into a
key-to-name object.  Note there is no duplicate check in the source: a
repeated key silently overwrites the earlier entry (last one wins). -/
def keyMapJS (conditions : List (List Char × Char)) : List (Char × List Char) :=
  conditions.foldl (fun ret nc => keyMapInsert ret nc.2 nc.1) []

/-- The `(name, key)` pairs of the real registry, in insertion order. -/
def registryPairs : List (List Char × Char) :=
  condRegistry.map (fun c => (condName c, condKey c))

/-! ### Table configuration and live state -/

inductive Dir where
  | asc | desc
deriving DecidableEq, Repr

/-- `order()[0][1].charAt(0)`: first letter of the direction word. -/
def dirChar : Dir → Char
  | Dir.asc => 'a'
  | Dir.desc => 'd'

/-- Select-extension style: `multi` selects all listed rows on load, any
other style (`single`, `os`, ...) applies only the first. -/
inductive SelStyle where
  | single | multi
deriving DecidableEq, Repr

/-- Static, per-table configuration resolved at DataTables initialization. -/
structure TableCfg where
  tableId : List Char
  nCols : Nat
  initVis : List Bool
  initPageLength : Option Int
  dtDefaultLength : Int
  initOrder : List (Nat × Dir)
  defaultOrder : List (Nat × Dir)
  hasScroller : Bool
  hasColReorder : Bool
  hasSelect : Bool
  selectStyle : SelStyle

/-- Live, observable table state tracked by the eight conditions.
`scrollTop` models the truncated integer `oScroller.s.baseRowTop`. -/
structure TableState where
  searchStr : List Char
  pageLen : Int
  page : Int
  colVis : List Bool
  scrollTop : Int
  colOrder : List Int
  selected : List Int
  order : List (Nat × Dir)
deriving DecidableEq, Repr

/-- `oInit.pageLength || defaults.iDisplayLength`: JS `||` falls through on
the falsy value `0`. -/
def effPageLength (cfg : TableCfg) : Int :=
  match cfg.initPageLength with
  | some v => if v ≠ 0 then v else cfg.dtDefaultLength
  | none => cfg.dtDefaultLength

/-- The state of a freshly initialized table with configuration `cfg`,
before any saved conditions are applied. -/
def freshState (cfg : TableCfg) : TableState :=
  { searchStr := []
    pageLen := effPageLength cfg
    page := 0
    colVis := cfg.initVis
    scrollTop := 0
    colOrder := (List.range cfg.nCols).map Int.ofNat
    selected := []
    order := cfg.initOrder }

/-- The `isset()` predicate of each condition (is the live value non-default). -/
def isset (cfg : TableCfg) (st : TableState) : Cond → Bool
  | Cond.search => decide (st.searchStr.length ≠ 0)
  | Cond.length => decide (st.pageLen ≠ 0) && decide (st.pageLen ≠ effPageLength cfg)
  | Cond.page => decide (st.page ≠ 0)
  | Cond.colvis => st.colVis.any (fun v => !v)
  | Cond.scroller => decide (st.scrollTop ≠ 0)
  | Cond.colorder =>
    cfg.hasColReorder && decide (st.colOrder ≠ (List.range cfg.nCols).map Int.ofNat)
  | Cond.select => cfg.hasSelect
  | Cond.order => decide (st.order ≠ []) && decide (st.order ≠ cfg.defaultOrder)

/-- Column indexes whose visibility flag equals `b`, in index order
(the `t`/`f` arrays built by `colvis.newHashVal`). -/
def colvisIdx (vis : List Bool) (b : Bool) : List Nat :=
  (List.range vis.length).filter (fun i => vis.getD i false == b)

/-- `colvis.newHashVal` (src lines 1108–1130): `f` + hidden list when the
visible list is at least as long, else `t` + visible list. -/
def colvisNewHashVal (vis : List Bool) : List Char :=
  let t := colvisIdx vis true
  let f := colvisIdx vis false
  if t.length ≥ f.length then 'f' :: joinWith '.' (f.map natToDec)
  else 't' :: joinWith '.' (t.map natToDec)

/-- The `newHashVal()` of each condition; `none` models `undefined`/`false`
return values, which `structureHash` filters out.  The `order` case reads
`order()[0]`; it is only invoked when `isset` holds, which guarantees the
order array is non-empty (the `headD` default is never used).  `select`
serializes row indexes (the `rowId` variant is outside this model). -/
def newHashVal (cfg : TableCfg) (st : TableState) : Cond → Option (List Char)
  | Cond.search => some (encodeURIComponentJS st.searchStr)
  | Cond.length => some (intToDec st.pageLen)
  | Cond.page => some (intToDec st.page)
  | Cond.colvis => some (colvisNewHashVal st.colVis)
  | Cond.scroller => if st.scrollTop ≠ 0 then some (intToDec st.scrollTop) else none
  | Cond.colorder => some (colorderNewHashVal st.colOrder)
  | Cond.select =>
    if st.selected.length = 0 then none
    else some (joinWith '.' (st.selected.map intToDec))
  | Cond.order =>
    some (dirChar (st.order.headD (0, Dir.asc)).2 :: natToDec (st.order.headD (0, Dir.asc)).1)

/-- One entry of the `tableHash` array in `structureHash`: key character
prepended to the condition's new hash value, present only when `isset`
holds and `newHashVal` is neither `undefined` nor `false`. -/
def condEntry (cfg : TableCfg) (st : TableState) (c : Cond) : Option (List Char) :=
  if isset cfg st c then
    match newHashVal cfg st c with
    | some v => some (condKey c :: v)
    | none => none
  else none

/-- The `tableHash` array of `structureHash` for the enabled conditions,
in enabled-list order. -/
def tableHashEntries (cfg : TableCfg) (st : TableState) (enabled : List Cond) :
    List (List Char) :=
  enabled.filterMap (condEntry cfg st)

/-- `$.unique` applied to `_enabledConditions`.  jQuery's `uniqueSort` on a
non-DOM array removes duplicates with an unspecified ordering; it is
modelled as `dedup`, which is the identity on the duplicate-free lists the
plugin builds. -/
def jqUnique (l : List Cond) : List Cond := l.dedup

/-- `getEnabledConditions` (src lines 902–906): the deduplicated enabled
list, or `false` (here `none`) when empty. -/
def getEnabledConditions (enabled : List Cond) : Option (List Cond) :=
  if enabled.length > 0 then some (jqUnique enabled) else none

/-- A small concrete table configuration: two columns, DataTables default
page length 10, no extensions. -/
def cfgC6 : TableCfg :=
  { tableId := "example".toList
    nCols := 2
    initVis := [true, true]
    initPageLength := none
    dtDefaultLength := 10
    initOrder := []
    defaultOrder := []
    hasScroller := false
    hasColReorder := false
    hasSelect := false
    selectStyle := SelStyle.single }

/-- `cfgC6`'s fresh state with page length changed to 25. -/
def st25C6 : TableState := { freshState cfgC6 with pageLen := 25 }

/-- A non-default live state for `cfgC6`: search text, page length 25,
page 3, first column hidden, and a two-column ordering. -/
def stC1 : TableState :=
  { searchStr := "abc".toList
    pageLen := 25
    page := 3
    colVis := [false, true]
    scrollTop := 0
    colOrder := [0, 1]
    selected := []
    order := [(1, Dir.asc), (2, Dir.desc)] }

/-! ### Fragment codec (`queryString`, src lines 196–218, and the fragment
rebuild inside `structureHash`, src lines 270–323) -/

/-- A value stored in the `queryString()` result object: `undefined` for an
entry with no `=`, a string for a single occurrence, an array after
repeated occurrences of the same table identifier. -/
inductive QVal where
  | undef
  | str : List Char → QVal
  | arr : List (Option (List Char)) → QVal
deriving DecidableEq, Repr

/-- One `queryString` loop iteration: JS object assignment with the quirky
multi-value accumulation (first entry scalar, second promotes to a pair,
later entries append). -/
def qsUpdate (m : List (List Char × QVal)) (key : List Char) (v : Option (List Char)) :
    List (List Char × QVal) :=
  match m with
  | [] => [(key, match v with | none => QVal.undef | some s => QVal.str s)]
  | (k, val) :: rest =>
    if k = key then
      (k, match val with
          | QVal.undef => (match v with | none => QVal.undef | some s => QVal.str s)
          | QVal.str s => QVal.arr [some s, v]
          | QVal.arr vs => QVal.arr (vs ++ [v])) :: rest
    else (k, val) :: qsUpdate rest key v

/-- `KeepConditions.queryString()`: split the fragment on `&`, then each
entry on `=`; accumulate into an insertion-ordered key/value object.
(JS objects reorder integer-like keys first; table ids are element ids,
never integer-like, so insertion order is used.) -/
def queryString (frag : List Char) : List (List Char × QVal) :=
  (splitOnChar '&' frag).foldl
    (fun qs pairStr =>
      let pair := splitOnChar '=' pairStr
      qsUpdate qs (pair.headD []) pair[1]?)
    []

/-- JS truthiness of a `queryString` value (`!cons`). -/
def qvalFalsy : QVal → Bool
  | QVal.undef => true
  | QVal.str s => decide (s = [])
  | QVal.arr _ => false

/-- `cons || ''` in the hash-preserving loop of `structureHash`. -/
def jsOrEmpty : QVal → QVal
  | QVal.undef => QVal.str []
  | QVal.str s => QVal.str s
  | QVal.arr vs => QVal.arr vs

/-- `.length` of a hash value (string length, or array length). -/
def hvalLength : QVal → Nat
  | QVal.undef => 0
  | QVal.str s => s.length
  | QVal.arr vs => vs.length

/-- Template interpolation `${conditions}` of a hash value: a string stays
itself, an array joins its elements with `,` (`undefined` renders empty). -/
def hvalRender : QVal → List Char
  | QVal.undef => []
  | QVal.str s => s
  | QVal.arr vs => joinWith ',' (vs.map (fun v => v.getD []))

/-- The `urlHash` build and join of `structureHash` (src lines 308–313):
render `id=conditions` for every entry whose value is non-empty, joined
by `&`. -/
def encodeHashEntries (hash : List (List Char × QVal)) : List Char :=
  joinWith '&' (hash.foldl
    (fun acc (tv : List Char × QVal) =>
      if hvalLength tv.2 > 0 then acc ++ [tv.1 ++ '=' :: hvalRender tv.2] else acc)
    [])

/-- `newHash || '_'`: an empty composed fragment is replaced by the `_`
placeholder so the written hash is never the empty string
(src lines 319–322). -/
def hashOrPlaceholder (newHash : List Char) : List Char :=
  if newHash = [] then ['_'] else newHash

/-- The fragment-rebuild part of `KeepConditions.structureHash`
(src lines 282–313): keep every other table's entry untouched, drop this
table's old entry, append this table's freshly composed token, then render
`id=token` entries joined by `&`, skipping empty tokens. -/
def structureHashFrag (frag : List Char) (tableId : List Char) (tableToken : List Char) :
    List Char :=
  let hashParsed := queryString frag
  let hash := hashParsed.foldl
    (fun h (tc : List Char × QVal) =>
      if tc.1 = [] ∧ qvalFalsy tc.2 then h
      else if tc.1 ≠ tableId then h ++ [(tc.1, jsOrEmpty tc.2)]
      else h)
    []
  encodeHashEntries (hash ++ [(tableId, QVal.str tableToken)])

/-- The fragment actually written: `window.location.hash = newHash || '_'`
(src lines 319–322). -/
def structureHashWritten (frag : List Char) (tableId : List Char) (tok : List Char) :
    List Char :=
  hashOrPlaceholder (structureHashFrag frag tableId tok)

/-- `KeepConditions.structureHash` for one table: compose the token from
the enabled conditions and rebuild the fragment.  `none` models the
`throw` when `getEnabledConditions()` returns `false`. -/
def structureHashWrite (cfg : TableCfg) (st : TableState) (enabled : List Cond)
    (frag : List Char) : Option (List Char) :=
  match getEnabledConditions enabled with
  | none => none
  | some conds =>
    some (structureHashWritten frag cfg.tableId
      (joinWith ':' (tableHashEntries cfg st conds)))

/-! ### `processHash` (src lines 758–792) and the per-condition `onLoad`
handlers -/

/-- The `onLoad(conVal)` handler of each condition, applied to the live
table state.  `parseIntJS = none` models `NaN`; those branches are
unreachable for tokens this plugin writes (see each comment). -/
def applyCond (cfg : TableCfg) (st : TableState) (c : Cond) (v : List Char) :
    TableState :=
  match c with
  | Cond.search =>
    -- decodeURIComponent throwing URIError is not modelled; it cannot
    -- throw on the output of encodeURIComponent
    let d := (decodeURIComponentJS v).getD []
    if st.searchStr ≠ d then { st with searchStr := d } else st
  | Cond.length =>
    -- page.len(parseInt(v)); the NaN case would be a nonsensical API call
    { st with pageLen := (parseIntJS v).getD 0 }
  | Cond.page =>
    match parseIntJS v with
    | some n => if n ≠ 0 then { st with page := n } else st
    | none => st
  | Cond.colvis =>
    match v with
    | [] => st
    | isVis :: rest =>
      if isVis = 't' ∨ isVis = 'f' then
        let columns := splitOnChar '.' rest
        { st with colVis := (List.range st.colVis.length).map (fun i =>
            if isVis = 't' then columns.contains (natToDec i)
            else !(columns.contains (natToDec i))) }
      else st
  | Cond.scroller =>
    -- row(parseInt(v)).scrollTo() modelled as restoring the base row offset
    match parseIntJS v with
    | some n => if n ≠ 0 then { st with scrollTop := n } else st
    | none => st
  | Cond.colorder =>
    if cfg.hasColReorder then
      let hashColOrder := colorderParse v
      if hashColOrder ≠ st.colOrder then { st with colOrder := hashColOrder } else st
    else st
  | Cond.select =>
    if v = [] then st
    else
      let rows := (splitOnChar '.' v).map (fun s => (parseIntJS s).getD 0)
      if cfg.selectStyle = SelStyle.multi then { st with selected := rows }
      else if rows.length > 0 then { st with selected := [rows.headD 0] } else st
  | Cond.order =>
    match v with
    | [] => st
    | d :: cv =>
      match parseIntJS cv with
      | some n =>
        if d = 'a' then { st with order := [(n.toNat, Dir.asc)] }
        else if d = 'd' then { st with order := [(n.toNat, Dir.desc)] }
        else st
      | none => st

/-- Processing of one `:`-separated token entry in `processHash`: resolve
the key character, skip disabled or unknown conditions, else run `onLoad`. -/
def processEntry (cfg : TableCfg) (enabled : List Cond) (st : TableState)
    (entry : List Char) : TableState :=
  match entry with
  | [] => st
  | k :: v =>
    match condOfKey k with
    | none => st
    | some c => if c ∈ jqUnique enabled then applyCond cfg st c v else st

/-- `KeepConditions.processHash`: walk the parsed fragment, take the first
value when a table id occurs several times, and apply every entry of this
table's token in order. -/
def processHashStr (cfg : TableCfg) (enabled : List Cond) (fresh : TableState)
    (frag : List Char) : TableState :=
  (queryString frag).foldl
    (fun st (tc : List Char × QVal) =>
      let cons := match tc.2 with
        | QVal.arr vs => (vs.headD (some [])).getD []
        | QVal.str s => s
        | QVal.undef => []   -- JS would throw calling split on undefined
      if tc.1 ≠ cfg.tableId then st
      else (splitOnChar ':' cons).foldl (processEntry cfg enabled) st)
    fresh

/-- Encode-then-decode round trip onto a freshly initialized table, in an
initially empty fragment context: `structureHash` writes the fragment and
`processHash` applies it to `freshState cfg`. -/
def roundTrip (cfg : TableCfg) (st : TableState) (enabled : List Cond) :
    Option TableState :=
  (structureHashWrite cfg st enabled []).map
    (processHashStr cfg enabled (freshState cfg))

/-! ### Controller operations -/

/-- `attachEvents` (src lines 529–560): throws when no conditions are
enabled, else attaches `structureHash` to every enabled condition's
events under the `keepConditions` namespace.  The returned list holds the
namespaced event names subscribed (listener bookkeeping itself is an
external effect). -/
def attachEvents (enabled : List Cond) : Except (List Char) (List (List Char)) :=
  match getEnabledConditions enabled with
  | none => Except.error "No enabled conditions to attach to events".toList
  | some conds =>
    Except.ok ((conds.map (fun c =>
      (condEvents c).map (fun e => e ++ '.' :: "keepConditions".toList))).flatten)

/-- `detachEvents` (src lines 573–595): throws when no conditions are
enabled (same message as attach), else unsubscribes the namespaced events
of the conditions that are enabled and initialized. -/
def detachEvents (enabled : List Cond) : Except (List Char) (List (List Char)) :=
  match getEnabledConditions enabled with
  | none => Except.error "No enabled conditions to attach to events".toList
  | some conds =>
    Except.ok (conds.map (fun c =>
      hvalRender (match condEvents c with
        | [e] => QVal.str e
        | es => QVal.arr (es.map some)) ++ '.' :: "keepConditions".toList))

/-- `$.inArray`: index of the element, `-1` when absent. -/
def jqInArray (x : Cond) (arr : List Cond) : Int :=
  match arr.findIdx? (fun y => y == x) with
  | some i => (i : Int)
  | none => -1

/-- JS `Array.prototype.splice(start, deleteCount)` restricted to its
removal effect: a negative `start` counts from the end (clamped at 0). -/
def spliceRemove {α : Type} (xs : List α) (start : Int) (count : Nat) : List α :=
  let len := xs.length
  let s : Nat := if start < 0 then ((len : Int) + start).toNat
    else min start.toNat len
  xs.take s ++ xs.drop (s + count)

/-- `disableCondition` (src lines 858–890), single condition-name branch:
the registry lookup `this.conditions(condition) !== false` always succeeds
for a registered name, after which the element at `$.inArray(...)` is
spliced out — with no check that the condition was enabled at all. -/
def disableCondition (enabled : List Cond) (condition : Cond) : List Cond :=
  spliceRemove enabled (jqInArray condition enabled) 1

/-! ### The constructor guard (src lines 112–115) -/

/-- The kinds of argument the `KeepConditions` constructor can receive:
a live DataTable (selector/instance for which `$.fn.DataTable.isDataTable`
is true), a DataTables API instance, or anything else (with its JS
truthiness). -/
inductive DtArg where
  | dataTable
  | apiInstance
  | other : Bool → DtArg
deriving DecidableEq, Repr

def isDataTableJS : DtArg → Bool
  | DtArg.dataTable => true
  | _ => false

/-- JS `!x` on the constructor argument: objects are truthy. -/
def jsNot : DtArg → Bool
  | DtArg.dataTable => false
  | DtArg.apiInstance => false
  | DtArg.other t => !t

/-- `b instanceof $.fn.dataTable.Api` where `b` is a primitive boolean:
always false (a primitive is never an instance of a class). -/
def boolInstanceofApi (_ : Bool) : Bool := false

/-- The constructor guard exactly as written:
`! $.fn.DataTable.isDataTable( dtSettings ) && ! dtSettings instanceof $.fn.dataTable.Api`.
By JS operator precedence `!` binds tighter than `instanceof`, so this is
`(!isDataTable(x)) && ((!x) instanceof Api)`. -/
def constructorThrows (arg : DtArg) : Bool :=
  !(isDataTableJS arg) && boolInstanceofApi (jsNot arg)

/-- The guard the surrounding comment describes ("Check that we were
initiated on an actual DataTable"): throw when the argument is neither a
DataTable nor an API instance. -/
def constructorThrowsIntended (arg : DtArg) : Bool :=
  !(isDataTableJS arg) && !(decide (arg = DtArg.apiInstance))

/-! ### Fragment-isolation machinery (for the merge-preserving update) -/

/-- `id=token` rendering of one fragment entry. -/
def renderFragEntry (e : List Char × List Char) : List Char := e.1 ++ '=' :: e.2

/-- A well-formed fragment: `id=token` entries joined by `&`. -/
def renderFrag (entries : List (List Char × List Char)) : List Char :=
  joinWith '&' (entries.map renderFragEntry)

/-- A well-formed fragment entry: non-empty table id and token, neither
containing the structural characters `&` or `=`. -/
def WfEntry (e : List Char × List Char) : Prop :=
  e.1 ≠ [] ∧ '&' ∉ e.1 ∧ '=' ∉ e.1 ∧ e.2 ≠ [] ∧ '&' ∉ e.2 ∧ '=' ∉ e.2

instance (e : List Char × List Char) : Decidable (WfEntry e) := by
  unfold WfEntry
  infer_instance

/-- `pat` occurs contiguously (byte-identically) inside `xs`. -/
def containsSeg (pat xs : List Char) : Prop := ∃ u v, xs = u ++ pat ++ v

/-- The per-condition `onLoad` value actually composed by `structureHash`
from the live state. -/
def condLoadVal (cfg : TableCfg) (st : TableState) (c : Cond) : List Char :=
  (newHashVal cfg st c).getD []

/-- The whole onLoad pass of `processHash` over this table's entries, as a
fold of the per-condition handlers applied to the values `structureHash`
composed from the saved state `st`. -/
def foldApplyLoad (cfg : TableCfg) (st : TableState) (cs : List Cond)
    (s : TableState) : TableState :=
  cs.foldl (fun t c => applyCond cfg t c (condLoadVal cfg st c)) s

/-! ## Theorems -/

theorem splitOnChar_ne_nil (sep : Char) (xs : List Char) :
    splitOnChar sep xs ≠ [] := by
  cases xs with
  | nil => simp [splitOnChar]
  | cons c rest =>
    simp only [splitOnChar]
    split <;> simp

theorem splitOnChar_no_sep (sep : Char) (p : List Char) (hp : sep ∉ p) :
    splitOnChar sep p = [p] := by
  induction p with
  | nil => rfl
  | cons c rest ih =>
    simp only [List.mem_cons, not_or] at hp
    have hc : ¬(c = sep) := fun h => hp.1 h.symm
    simp [splitOnChar, ih hp.2, hc]

theorem splitOnChar_append_sep (sep : Char) (p rest : List Char) (hp : sep ∉ p) :
    splitOnChar sep (p ++ sep :: rest) = p :: splitOnChar sep rest := by
  induction p with
  | nil => simp [splitOnChar]
  | cons c q ih =>
    simp only [List.mem_cons, not_or] at hp
    have hc : ¬(c = sep) := fun h => hp.1 h.symm
    simp only [List.cons_append, splitOnChar, List.append_eq]
    rw [ih hp.2]
    simp [hc]

theorem splitOnChar_joinWith (sep : Char) (parts : List (List Char))
    (hne : parts ≠ []) (hsep : ∀ p ∈ parts, sep ∉ p) :
    splitOnChar sep (joinWith sep parts) = parts := by
  induction parts with
  | nil => exact absurd rfl hne
  | cons p ps ih =>
    cases ps with
    | nil =>
      simpa [joinWith] using splitOnChar_no_sep sep p (hsep p (by simp))
    | cons q qs =>
      have h1 : sep ∉ p := hsep p (by simp)
      have h2 : ∀ r ∈ q :: qs, sep ∉ r := fun r hr => hsep r (by simp [hr])
      simp only [joinWith]
      rw [splitOnChar_append_sep sep p _ h1, ih (by simp) h2]

theorem natToDecFuel_congr : ∀ (n f1 f2 : Nat), n < f1 → n < f2 →
    natToDecFuel f1 n = natToDecFuel f2 n := by
  intro n
  induction n using Nat.strong_induction_on with
  | _ n ih =>
    intro f1 f2 h1 h2
    cases f1 with
    | zero => omega
    | succ g1 =>
      cases f2 with
      | zero => omega
      | succ g2 =>
        simp only [natToDecFuel]
        by_cases h10 : n < 10
        · rw [if_pos h10, if_pos h10]
        · rw [if_neg h10, if_neg h10]
          have hd : n / 10 < n := Nat.div_lt_self (by omega) (by omega)
          rw [ih (n / 10) hd g1 g2 (by omega) (by omega)]

/-- The recursive unfolding of `natToDec`. -/
theorem natToDec_unfold (n : Nat) :
    natToDec n = if n < 10 then [digitChar n]
      else natToDec (n / 10) ++ [digitChar (n % 10)] := by
  show natToDecFuel (n + 1) n = _
  simp only [natToDecFuel]
  by_cases h10 : n < 10
  · rw [if_pos h10, if_pos h10]
  · rw [if_neg h10, if_neg h10]
    have hd : n / 10 < n := Nat.div_lt_self (by omega) (by omega)
    show natToDecFuel n (n / 10) ++ _ = natToDecFuel (n / 10 + 1) (n / 10) ++ _
    rw [natToDecFuel_congr (n / 10) n (n / 10 + 1) (by omega) (by omega)]

theorem digitChar_toNat {n : Nat} (h : n < 10) : (digitChar n).toNat = 48 + n := by
  interval_cases n <;> decide

theorem digitChar_isDigit {n : Nat} (h : n < 10) : isDigitCh (digitChar n) = true := by
  interval_cases n <;> decide

theorem natToDec_ne_nil (n : Nat) : natToDec n ≠ [] := by
  rw [natToDec_unfold]
  split <;> simp

theorem natToDec_digits (n : Nat) : ∀ c ∈ natToDec n, isDigitCh c = true := by
  induction n using Nat.strong_induction_on with
  | _ n ih =>
    rw [natToDec_unfold]
    split
    · next h =>
      intro c hc
      simp only [List.mem_singleton] at hc
      exact hc ▸ digitChar_isDigit h
    · next h =>
      intro c hc
      simp only [List.mem_append, List.mem_singleton] at hc
      rcases hc with hc | hc
      · exact ih (n / 10) (Nat.div_lt_self (by omega) (by omega)) c hc
      · exact hc ▸ digitChar_isDigit (Nat.mod_lt _ (by omega))

theorem decValue_append (a b : List Char) :
    decValue (a ++ b) = decValue a * 10 ^ b.length + decValue b := by
  suffices h : ∀ (b : List Char) (acc : Nat),
      b.foldl (fun a c => a * 10 + digitVal c) acc
        = acc * 10 ^ b.length + b.foldl (fun a c => a * 10 + digitVal c) 0 by
    simp only [decValue, List.foldl_append]
    rw [h b (a.foldl _ 0)]
  intro b
  induction b with
  | nil => intro acc; simp
  | cons c cs ih =>
    intro acc
    simp only [List.foldl_cons, List.length_cons]
    rw [ih (acc * 10 + digitVal c), ih (0 * 10 + digitVal c)]
    ring

theorem decValue_natToDec (n : Nat) : decValue (natToDec n) = n := by
  induction n using Nat.strong_induction_on with
  | _ n ih =>
    rw [natToDec_unfold]
    split
    · next h =>
      simp only [decValue, List.foldl_cons, List.foldl_nil]
      have := digitChar_toNat h
      simp [digitVal, this]
    · next h =>
      rw [decValue_append, ih (n / 10) (Nat.div_lt_self (by omega) (by omega))]
      have h10 : n % 10 < 10 := Nat.mod_lt _ (by omega)
      simp only [List.length_singleton, pow_one, decValue, List.foldl_cons,
        List.foldl_nil, digitVal, digitChar_toNat h10]
      omega

theorem takeWhile_all_eq {p : Char → Bool} {xs : List Char}
    (h : ∀ c ∈ xs, p c = true) : xs.takeWhile p = xs := by
  induction xs with
  | nil => rfl
  | cons c cs ih =>
    have hc := h c (by simp)
    simp [List.takeWhile_cons, hc, ih (fun d hd => h d (by simp [hd]))]

theorem parseIntJS_natToDec (n : Nat) : parseIntJS (natToDec n) = some (n : Int) := by
  have hd := natToDec_digits n
  have hne := natToDec_ne_nil n
  cases hcase : natToDec n with
  | nil => exact absurd hcase hne
  | cons c cs =>
    have hcdig : isDigitCh c = true := hd c (by rw [hcase]; simp)
    have hcne : ¬(c = '-') := by
      intro h
      subst h
      exact absurd hcdig (by decide)
    have htake : (c :: cs).takeWhile isDigitCh = c :: cs :=
      takeWhile_all_eq (fun d hdmem => hd d (by rw [hcase]; exact hdmem))
    simp only [parseIntJS, if_neg hcne, htake]
    rw [if_neg (by simp)]
    have hval : decValue (c :: cs) = n := by rw [← hcase]; exact decValue_natToDec n
    rw [hval]

theorem parseIntJS_intToDec (i : Int) : parseIntJS (intToDec i) = some i := by
  by_cases hneg : i < 0
  · rw [intToDec, if_pos hneg]
    have hd := natToDec_digits i.natAbs
    have hne := natToDec_ne_nil i.natAbs
    have htake : (natToDec i.natAbs).takeWhile isDigitCh = natToDec i.natAbs :=
      takeWhile_all_eq hd
    have h1 : parseIntJS ('-' :: natToDec i.natAbs)
        = some (-(decValue (natToDec i.natAbs) : Int)) := by
      simp [parseIntJS, htake, hne]
    rw [h1, decValue_natToDec]
    simp only [Option.some.injEq]
    omega
  · rw [intToDec, if_neg hneg, parseIntJS_natToDec]
    simp only [Option.some.injEq]
    omega

theorem natToDec_injective : Function.Injective natToDec := by
  intro a b hab
  have ha := decValue_natToDec a
  have hb := decValue_natToDec b
  rw [hab] at ha
  omega

theorem hexByte_pctRound : ∀ b : Fin 256,
    hexByte? (hexDigitChar (b.1 / 16)) (hexDigitChar (b.1 % 16)) = some b.1 := by
  decide

theorem hexByte_pctRound_of_lt {b : Nat} (h : b < 256) :
    hexByte? (hexDigitChar (b / 16)) (hexDigitChar (b % 16)) = some b :=
  hexByte_pctRound ⟨b, h⟩

theorem isUnreserved_ne_pct {c : Char} (h : isUnreserved c = true) : ¬(c = '%') := by
  intro he
  subst he
  exact absurd h (by decide)

theorem char_toNat_lt (c : Char) : c.toNat < 1114112 := by
  have h := c.valid
  simp [UInt32.isValidChar, Nat.isValidChar] at h
  rcases h with h | h
  · exact Nat.lt_trans h (by norm_num)
  · exact h.2

theorem encChar_ne_nil (c : Char) : encChar c ≠ [] := by
  by_cases hu : isUnreserved c
  · simp [encChar, hu]
  · simp only [encChar, if_neg hu, utf8Bytes]
    split_ifs <;> simp [pctByte]

theorem decodeStep_encChar (c : Char) (rest : List Char) :
    decodeStep (encChar c ++ rest) = some (c, rest) := by
  by_cases hu : isUnreserved c
  · have hne := isUnreserved_ne_pct hu
    have henc : encChar c ++ rest = c :: rest := by simp [encChar, hu]
    rw [henc]
    simp [decodeStep, hne]
  · have hlt := char_toNat_lt c
    by_cases h1 : c.toNat < 128
    · have hb : c.toNat < 256 := by omega
      have e0 := hexByte_pctRound_of_lt hb
      have henc : encChar c ++ rest
          = '%' :: hexDigitChar (c.toNat / 16) :: hexDigitChar (c.toNat % 16) :: rest := by
        simp [encChar, hu, utf8Bytes, h1, pctByte]
      rw [henc]
      simp only [decodeStep]
      rw [e0]
      simp only [if_pos h1, Char.ofNat_toNat]
      simp
    · by_cases h2 : c.toNat < 2048
      · have hb0 : 192 + c.toNat / 64 < 256 := by omega
        have hb1 : 128 + c.toNat % 64 < 256 := by omega
        have e0 := hexByte_pctRound_of_lt hb0
        have e1 := hexByte_pctRound_of_lt hb1
        have henc : encChar c ++ rest
            = '%' :: hexDigitChar ((192 + c.toNat / 64) / 16)
              :: hexDigitChar ((192 + c.toNat / 64) % 16)
              :: '%' :: hexDigitChar ((128 + c.toNat % 64) / 16)
              :: hexDigitChar ((128 + c.toNat % 64) % 16) :: rest := by
          simp [encChar, hu, utf8Bytes, h1, h2, pctByte]
        rw [henc]
        simp only [decodeStep]
        rw [e0]
        have hc1 : ¬(192 + c.toNat / 64 < 128) := by omega
        have hc2 : ¬(192 + c.toNat / 64 < 192) := by omega
        have hc3 : 192 + c.toNat / 64 < 224 := by omega
        simp only [if_neg hc1, if_neg hc2, if_pos hc3]
        rw [e1]
        have hc4 : 128 ≤ 128 + c.toNat % 64 ∧ 128 + c.toNat % 64 < 192 := by omega
        simp only [if_pos hc4]
        have harith : (192 + c.toNat / 64 - 192) * 64 + (128 + c.toNat % 64 - 128)
            = c.toNat := by omega
        rw [harith, Char.ofNat_toNat]
        simp
      · by_cases h3 : c.toNat < 65536
        · have hb0 : 224 + c.toNat / 4096 < 256 := by omega
          have hb1 : 128 + c.toNat / 64 % 64 < 256 := by omega
          have hb2 : 128 + c.toNat % 64 < 256 := by omega
          have e0 := hexByte_pctRound_of_lt hb0
          have e1 := hexByte_pctRound_of_lt hb1
          have e2 := hexByte_pctRound_of_lt hb2
          have henc : encChar c ++ rest
              = '%' :: hexDigitChar ((224 + c.toNat / 4096) / 16)
                :: hexDigitChar ((224 + c.toNat / 4096) % 16)
                :: '%' :: hexDigitChar ((128 + c.toNat / 64 % 64) / 16)
                :: hexDigitChar ((128 + c.toNat / 64 % 64) % 16)
                :: '%' :: hexDigitChar ((128 + c.toNat % 64) / 16)
                :: hexDigitChar ((128 + c.toNat % 64) % 16) :: rest := by
            simp [encChar, hu, utf8Bytes, h1, h2, h3, pctByte]
          rw [henc]
          simp only [decodeStep]
          rw [e0]
          have hc1 : ¬(224 + c.toNat / 4096 < 128) := by omega
          have hc2 : ¬(224 + c.toNat / 4096 < 192) := by omega
          have hc3 : ¬(224 + c.toNat / 4096 < 224) := by omega
          have hc4 : 224 + c.toNat / 4096 < 240 := by omega
          simp only [if_neg hc1, if_neg hc2, if_neg hc3, if_pos hc4]
          rw [e1, e2]
          have hc5 : (128 ≤ 128 + c.toNat / 64 % 64 ∧ 128 + c.toNat / 64 % 64 < 192)
              ∧ (128 ≤ 128 + c.toNat % 64 ∧ 128 + c.toNat % 64 < 192) := by omega
          simp only [if_pos hc5]
          have harith : (224 + c.toNat / 4096 - 224) * 4096
              + (128 + c.toNat / 64 % 64 - 128) * 64 + (128 + c.toNat % 64 - 128)
              = c.toNat := by omega
          rw [harith, Char.ofNat_toNat]
          simp
        · have hb0 : 240 + c.toNat / 262144 < 256 := by omega
          have hb1 : 128 + c.toNat / 4096 % 64 < 256 := by omega
          have hb2 : 128 + c.toNat / 64 % 64 < 256 := by omega
          have hb3 : 128 + c.toNat % 64 < 256 := by omega
          have e0 := hexByte_pctRound_of_lt hb0
          have e1 := hexByte_pctRound_of_lt hb1
          have e2 := hexByte_pctRound_of_lt hb2
          have e3 := hexByte_pctRound_of_lt hb3
          have henc : encChar c ++ rest
              = '%' :: hexDigitChar ((240 + c.toNat / 262144) / 16)
                :: hexDigitChar ((240 + c.toNat / 262144) % 16)
                :: '%' :: hexDigitChar ((128 + c.toNat / 4096 % 64) / 16)
                :: hexDigitChar ((128 + c.toNat / 4096 % 64) % 16)
                :: '%' :: hexDigitChar ((128 + c.toNat / 64 % 64) / 16)
                :: hexDigitChar ((128 + c.toNat / 64 % 64) % 16)
                :: '%' :: hexDigitChar ((128 + c.toNat % 64) / 16)
                :: hexDigitChar ((128 + c.toNat % 64) % 16) :: rest := by
            simp [encChar, hu, utf8Bytes, h1, h2, h3, pctByte]
          rw [henc]
          simp only [decodeStep]
          rw [e0]
          have hc1 : ¬(240 + c.toNat / 262144 < 128) := by omega
          have hc2 : ¬(240 + c.toNat / 262144 < 192) := by omega
          have hc3 : ¬(240 + c.toNat / 262144 < 224) := by omega
          have hc4 : ¬(240 + c.toNat / 262144 < 240) := by omega
          have hc5 : 240 + c.toNat / 262144 < 248 := by omega
          simp only [if_neg hc1, if_neg hc2, if_neg hc3, if_neg hc4, if_pos hc5]
          rw [e1, e2, e3]
          have hc6 : (128 ≤ 128 + c.toNat / 4096 % 64 ∧ 128 + c.toNat / 4096 % 64 < 192)
              ∧ (128 ≤ 128 + c.toNat / 64 % 64 ∧ 128 + c.toNat / 64 % 64 < 192)
              ∧ (128 ≤ 128 + c.toNat % 64 ∧ 128 + c.toNat % 64 < 192) := by omega
          simp only [if_pos hc6]
          have harith : (240 + c.toNat / 262144 - 240) * 262144
              + (128 + c.toNat / 4096 % 64 - 128) * 4096
              + (128 + c.toNat / 64 % 64 - 128) * 64 + (128 + c.toNat % 64 - 128)
              = c.toNat := by omega
          rw [harith, Char.ofNat_toNat]
          simp

theorem decodeLoop_encode (s : List Char) : ∀ fuel,
    (encodeURIComponentJS s).length ≤ fuel →
    decodeLoop fuel (encodeURIComponentJS s) = some s := by
  induction s with
  | nil =>
    intro fuel _
    cases fuel <;> rfl
  | cons c cs ih =>
    intro fuel hf
    have henc : encodeURIComponentJS (c :: cs)
        = encChar c ++ encodeURIComponentJS cs := by
      simp [encodeURIComponentJS]
    rw [henc] at hf ⊢
    obtain ⟨d, ds, hds⟩ := List.exists_cons_of_ne_nil (encChar_ne_nil c)
    have hlen1 : 1 ≤ (encChar c).length := by rw [hds]; simp
    cases fuel with
    | zero =>
      exfalso
      rw [List.length_append] at hf
      omega
    | succ f =>
      have hcons : encChar c ++ encodeURIComponentJS cs
          = d :: (ds ++ encodeURIComponentJS cs) := by rw [hds]; simp
      rw [hcons]
      simp only [decodeLoop]
      rw [← hcons, decodeStep_encChar]
      have hfl : (encodeURIComponentJS cs).length ≤ f := by
        rw [List.length_append] at hf
        omega
      dsimp only
      rw [ih f hfl]
      rfl

theorem decode_encode (s : List Char) :
    decodeURIComponentJS (encodeURIComponentJS s) = some s :=
  decodeLoop_encode s _ le_rfl

/-! ### Character classes of percent-encoded output -/

theorem utf8Bytes_lt (c : Char) : ∀ b ∈ utf8Bytes c, b < 256 := by
  have hlt := char_toNat_lt c
  intro b hb
  simp only [utf8Bytes] at hb
  split_ifs at hb <;>
    simp only [List.mem_cons, List.mem_singleton, List.not_mem_nil, or_false] at hb <;>
    omega

theorem hexVal_hexDigitChar : ∀ x : Fin 16, (hexVal? (hexDigitChar x.1)).isSome = true := by
  decide

theorem encChar_class (c : Char) : ∀ d ∈ encChar c,
    isUnreserved d = true ∨ d = '%' ∨ (hexVal? d).isSome = true := by
  intro d hd
  by_cases hu : isUnreserved c
  · simp only [encChar, if_pos hu, List.mem_singleton] at hd
    exact Or.inl (hd ▸ hu)
  · simp only [encChar, if_neg hu, List.mem_flatten] at hd
    obtain ⟨l, hl, hdl⟩ := hd
    simp only [List.mem_map] at hl
    obtain ⟨b, hb, rfl⟩ := hl
    have hb256 := utf8Bytes_lt c b hb
    simp only [pctByte, List.mem_cons, List.mem_singleton, List.not_mem_nil,
      or_false] at hdl
    rcases hdl with rfl | rfl | rfl
    · exact Or.inr (Or.inl rfl)
    · exact Or.inr (Or.inr (hexVal_hexDigitChar ⟨b / 16, by omega⟩))
    · exact Or.inr (Or.inr (hexVal_hexDigitChar ⟨b % 16, by omega⟩))

theorem encode_not_mem {a : Char} (h1 : isUnreserved a = false) (h2 : ¬(a = '%'))
    (h3 : hexVal? a = none) (s : List Char) : a ∉ encodeURIComponentJS s := by
  intro hmem
  simp only [encodeURIComponentJS, List.mem_flatten] at hmem
  obtain ⟨l, hl, hal⟩ := hmem
  simp only [List.mem_map] at hl
  obtain ⟨c, hc, rfl⟩ := hl
  rcases encChar_class c a hal with h | h | h
  · rw [h1] at h; exact absurd h (by simp)
  · exact h2 h
  · rw [h3] at h; exact absurd h (by simp)

theorem colTokExpandList_append (xs ys : List ColTok) :
    colTokExpandList (xs ++ ys) = colTokExpandList xs ++ colTokExpandList ys := by
  simp [colTokExpandList]

/-! Facts about `expandRangeJS`. -/

theorem expandRangeJS_up {a b : Int} (h : a ≤ b) :
    expandRangeJS a b = (List.range ((b - a).toNat + 1)).map (fun k : Nat => a + k) := by
  rw [expandRangeJS, if_neg (by omega)]
  have h2 : (b - a + 1).toNat = (b - a).toNat + 1 := by omega
  rw [h2]

theorem expandRangeJS_down {a b : Int} (h : b < a) :
    expandRangeJS a b = (List.range ((a - b).toNat + 1)).map (fun k : Nat => a - k) := by
  rw [expandRangeJS, if_pos (by omega)]
  have h2 : (a - b + 1).toNat = (a - b).toNat + 1 := by omega
  rw [h2]

theorem expandRangeJS_length_up {a b : Int} (h : a ≤ b) :
    (expandRangeJS a b).length = (b - a).toNat + 1 := by
  rw [expandRangeJS_up h]; simp

theorem expandRangeJS_length_down {a b : Int} (h : b < a) :
    (expandRangeJS a b).length = (a - b).toNat + 1 := by
  rw [expandRangeJS_down h]; simp

theorem expandRangeJS_up_getD {a b : Int} (h : a ≤ b) {i : Nat}
    (hi : i ≤ (b - a).toNat) : (expandRangeJS a b).getD i 0 = a + i := by
  rw [expandRangeJS_up h, List.getD_eq_getElem?_getD, List.getElem?_map,
    List.getElem?_range (by omega)]
  rfl

theorem expandRangeJS_down_getD {a b : Int} (h : b < a) {i : Nat}
    (hi : i ≤ (a - b).toNat) : (expandRangeJS a b).getD i 0 = a - i := by
  rw [expandRangeJS_down h, List.getD_eq_getElem?_getD, List.getElem?_map,
    List.getElem?_range (by omega)]
  rfl

theorem expandRangeJS_ne_nil (a b : Int) : expandRangeJS a b ≠ [] := by
  rcases le_or_lt a b with h | h
  · rw [expandRangeJS_up h]; simp
  · rw [expandRangeJS_down h]; simp

theorem lastInCol_up_1 {a b : Int} (h : a ≤ b) :
    lastInCol (expandRangeJS a b) 1 = b := by
  unfold lastInCol
  rw [expandRangeJS_length_up h]
  rw [show (b - a).toNat + 1 - 1 = (b - a).toNat from rfl]
  rw [expandRangeJS_up_getD h (le_refl _)]
  omega

theorem lastInCol_up_2 {a b : Int} (h : a < b) :
    lastInCol (expandRangeJS a b) 2 = b - 1 := by
  unfold lastInCol
  rw [expandRangeJS_length_up h.le]
  have hu : 1 ≤ (b - a).toNat := by omega
  have h2 : (b - a).toNat + 1 - 2 = (b - a).toNat - 1 := by omega
  rw [h2, expandRangeJS_up_getD h.le (by omega)]
  omega

theorem lastInCol_down_1 {a b : Int} (h : b < a) :
    lastInCol (expandRangeJS a b) 1 = b := by
  unfold lastInCol
  rw [expandRangeJS_length_down h]
  rw [show (a - b).toNat + 1 - 1 = (a - b).toNat from rfl]
  rw [expandRangeJS_down_getD h (le_refl _)]
  omega

theorem lastInCol_down_2 {a b : Int} (h : b < a) :
    lastInCol (expandRangeJS a b) 2 = b + 1 := by
  unfold lastInCol
  rw [expandRangeJS_length_down h]
  have hu : 1 ≤ (a - b).toNat := by omega
  have h2 : (a - b).toNat + 1 - 2 = (a - b).toNat - 1 := by omega
  rw [h2, expandRangeJS_down_getD h (by omega)]
  omega

theorem expandRangeJS_append_up {a b : Int} (h : a ≤ b) :
    expandRangeJS a b ++ [b + 1] = expandRangeJS a (b + 1) := by
  rw [expandRangeJS_up h, expandRangeJS_up (by omega : a ≤ b + 1)]
  have h2 : (b + 1 - a).toNat = (b - a).toNat + 1 := by omega
  rw [h2]
  conv_rhs => rw [List.range_succ, List.map_append]
  have h3 : a + (((b - a).toNat + 1 : Nat) : Int) = b + 1 := by omega
  simp only [List.map_cons, List.map_nil, h3]

theorem expandRangeJS_append_down {a b : Int} (h : b < a) :
    expandRangeJS a b ++ [b - 1] = expandRangeJS a (b - 1) := by
  rw [expandRangeJS_down h, expandRangeJS_down (by omega : b - 1 < a)]
  have h2 : (a - (b - 1)).toNat = (a - b).toNat + 1 := by omega
  rw [h2]
  conv_rhs => rw [List.range_succ, List.map_append]
  have h3 : a - (((a - b).toNat + 1 : Nat) : Int) = b - 1 := by omega
  simp only [List.map_cons, List.map_nil, h3]

theorem expandRangeJS_pair_up (p : Int) : expandRangeJS p (p + 1) = [p, p + 1] := by
  rw [expandRangeJS_up (by omega)]
  have h2 : (p + 1 - p).toNat = 1 := by omega
  rw [h2]
  simp [List.range_succ]

theorem expandRangeJS_pair_down (p : Int) : expandRangeJS p (p - 1) = [p, p - 1] := by
  rw [expandRangeJS_down (by omega)]
  have h2 : (p - (p - 1)).toNat = 1 := by omega
  rw [h2]
  simp [List.range_succ]

theorem expandRangeJS_mem_left (a b : Int) : a ∈ expandRangeJS a b := by
  rcases le_or_lt a b with h | h
  · rw [expandRangeJS_up h]
    refine List.mem_map.mpr ⟨0, List.mem_range.mpr (by omega), ?_⟩
    simp
  · rw [expandRangeJS_down h]
    refine List.mem_map.mpr ⟨0, List.mem_range.mpr (by omega), ?_⟩
    simp

theorem expandRangeJS_mem_right (a b : Int) : b ∈ expandRangeJS a b := by
  rcases le_or_lt a b with h | h
  · rw [expandRangeJS_up h]
    refine List.mem_map.mpr ⟨(b - a).toNat, List.mem_range.mpr (by omega), ?_⟩
    omega
  · rw [expandRangeJS_down h]
    refine List.mem_map.mpr ⟨(a - b).toNat, List.mem_range.mpr (by omega), ?_⟩
    omega

theorem colTokExpand_compileColl {a b : Int} (hne : a ≠ b) :
    colTokExpand (compileColl (expandRangeJS a b)) = expandRangeJS a b := by
  rcases lt_or_gt_of_ne hne with h | h
  · by_cases h2 : b = a + 1
    · subst h2
      rw [expandRangeJS_pair_up]
      simp [compileColl, colTokExpand, expandRangeJS_pair_up]
    · have hlen : (expandRangeJS a b).length = (b - a).toNat + 1 :=
        expandRangeJS_length_up h.le
      have hlen2 : (expandRangeJS a b).length ≠ 2 := by rw [hlen]; omega
      rw [compileColl, if_neg hlen2]
      rw [show (expandRangeJS a b).getD 0 0 = a by
        rw [expandRangeJS_up_getD h.le (by omega)]; omega]
      rw [lastInCol_up_1 h.le]
      rfl
  · by_cases h2 : b = a - 1
    · subst h2
      rw [expandRangeJS_pair_down]
      simp [compileColl, colTokExpand, expandRangeJS_pair_down]
    · have hlen : (expandRangeJS a b).length = (a - b).toNat + 1 :=
        expandRangeJS_length_down h
      have hlen2 : (expandRangeJS a b).length ≠ 2 := by rw [hlen]; omega
      rw [compileColl, if_neg hlen2]
      rw [show (expandRangeJS a b).getD 0 0 = a by
        rw [expandRangeJS_down_getD h (by omega)]; omega]
      rw [lastInCol_down_1 h]
      rfl

theorem colStep_inv {consumed : List Int} {st : ColSt} (h : ColInv consumed st)
    (s : Int) : ColInv (consumed ++ [s]) (colStep st s) := by
  obtain ⟨hexp, hrun, htail, hnone⟩ := h
  cases hprev : st.prev with
  | none =>
    obtain ⟨hr, hc, hcons⟩ := hnone hprev
    simp only [colStep, hprev]
    refine ⟨?_, Or.inl hc, ?_, ?_⟩
    · show colTokExpandList (st.result ++ [ColTok.num s]) ++ st.coll = consumed ++ [s]
      rw [hr, hc, hcons]
      simp [colTokExpandList, colTokExpand]
    · intro _
      exact Or.inr ⟨st.result, s, rfl, rfl⟩
    · intro hcontra
      exact absurd hcontra (by simp)
  | some p =>
    simp only [colStep, hprev]
    by_cases hcoll : st.coll.length > 0
    · rw [if_pos hcoll]
      have hcne : st.coll ≠ [] := by
        intro h0
        rw [h0] at hcoll
        simp at hcoll
      rcases hrun with h0 | ⟨a, b, hab, hcolleq⟩
      · exact absurd h0 hcne
      rcases lt_or_gt_of_ne hab with hlt | hgt
      · -- ascending collection
        have l1 : lastInCol st.coll 1 = b := by rw [hcolleq]; exact lastInCol_up_1 hlt.le
        have l2 : lastInCol st.coll 2 = b - 1 := by rw [hcolleq]; exact lastInCol_up_2 hlt
        by_cases hs : s = b + 1
        · rw [if_pos (by rw [l1, l2]; exact ⟨by omega, by omega⟩)]
          refine ⟨?_, ?_, ?_, ?_⟩
          · show colTokExpandList st.result ++ (st.coll ++ [s]) = consumed ++ [s]
            rw [← List.append_assoc, hexp]
          · refine Or.inr ⟨a, b + 1, by omega, ?_⟩
            show st.coll ++ [s] = expandRangeJS a (b + 1)
            rw [hcolleq, hs]
            exact expandRangeJS_append_up hlt.le
          · intro hcontra
            exact absurd hcontra (by simp)
          · intro hcontra
            exact absurd hcontra (by simp)
        · rw [if_neg (by rw [l1, l2]; rintro ⟨-, h⟩; omega),
            if_neg (by rw [l1, l2]; rintro ⟨h, -⟩; omega)]
          refine ⟨?_, Or.inl rfl, ?_, ?_⟩
          · show colTokExpandList (st.result ++ [compileColl st.coll, ColTok.num s]) ++ []
              = consumed ++ [s]
            rw [List.append_nil]
            have hsplit : st.result ++ [compileColl st.coll, ColTok.num s]
                = (st.result ++ [compileColl st.coll]) ++ [ColTok.num s] := by simp
            rw [hsplit, colTokExpandList_append, colTokExpandList_append]
            have hcomp : colTokExpandList [compileColl st.coll] = st.coll := by
              show colTokExpand (compileColl st.coll) ++ [] = st.coll
              rw [List.append_nil, hcolleq]
              exact colTokExpand_compileColl hab
            have hnum : colTokExpandList [ColTok.num s] = [s] := rfl
            rw [hcomp, hnum, List.append_assoc]
            rw [← List.append_assoc, hexp]
          · intro _
            refine Or.inr ⟨st.result ++ [compileColl st.coll], s, rfl, ?_⟩
            show st.result ++ [compileColl st.coll, ColTok.num s]
              = (st.result ++ [compileColl st.coll]) ++ [ColTok.num s]
            simp
          · intro hcontra
            exact absurd hcontra (by simp)
      · -- descending collection
        have l1 : lastInCol st.coll 1 = b := by rw [hcolleq]; exact lastInCol_down_1 hgt
        have l2 : lastInCol st.coll 2 = b + 1 := by rw [hcolleq]; exact lastInCol_down_2 hgt
        by_cases hs : s = b - 1
        · rw [if_neg (by rw [l1, l2]; rintro ⟨h, -⟩; omega),
            if_pos (by rw [l1, l2]; exact ⟨by omega, by omega⟩)]
          refine ⟨?_, ?_, ?_, ?_⟩
          · show colTokExpandList st.result ++ (st.coll ++ [s]) = consumed ++ [s]
            rw [← List.append_assoc, hexp]
          · refine Or.inr ⟨a, b - 1, by omega, ?_⟩
            show st.coll ++ [s] = expandRangeJS a (b - 1)
            rw [hcolleq, hs]
            exact expandRangeJS_append_down hgt
          · intro hcontra
            exact absurd hcontra (by simp)
          · intro hcontra
            exact absurd hcontra (by simp)
        · rw [if_neg (by rw [l1, l2]; rintro ⟨h, -⟩; omega),
            if_neg (by rw [l1, l2]; rintro ⟨-, h⟩; omega)]
          refine ⟨?_, Or.inl rfl, ?_, ?_⟩
          · show colTokExpandList (st.result ++ [compileColl st.coll, ColTok.num s]) ++ []
              = consumed ++ [s]
            rw [List.append_nil]
            have hsplit : st.result ++ [compileColl st.coll, ColTok.num s]
                = (st.result ++ [compileColl st.coll]) ++ [ColTok.num s] := by simp
            rw [hsplit, colTokExpandList_append, colTokExpandList_append]
            have hcomp : colTokExpandList [compileColl st.coll] = st.coll := by
              show colTokExpand (compileColl st.coll) ++ [] = st.coll
              rw [List.append_nil, hcolleq]
              exact colTokExpand_compileColl hab
            have hnum : colTokExpandList [ColTok.num s] = [s] := rfl
            rw [hcomp, hnum, List.append_assoc]
            rw [← List.append_assoc, hexp]
          · intro _
            refine Or.inr ⟨st.result ++ [compileColl st.coll], s, rfl, ?_⟩
            show st.result ++ [compileColl st.coll, ColTok.num s]
              = (st.result ++ [compileColl st.coll]) ++ [ColTok.num s]
            simp
          · intro hcontra
            exact absurd hcontra (by simp)
    · rw [if_neg hcoll]
      have hc0 : st.coll = [] := by
        cases hcase : st.coll with
        | nil => rfl
        | cons x xs => rw [hcase] at hcoll; simp at hcoll
      rcases htail hc0 with ⟨-, hpn, -⟩ | ⟨r, p0, hp0, hres⟩
      · rw [hprev] at hpn
        exact absurd hpn (by simp)
      · rw [hprev] at hp0
        have hpp : p0 = p := (Option.some_inj.mp hp0).symm
        subst hpp
        have hexp2 : colTokExpandList r ++ [p0] = consumed := by
          rw [← hexp, hc0, hres, colTokExpandList_append]
          simp [colTokExpandList, colTokExpand]
        by_cases hs : s = p0 + 1 ∨ s = p0 - 1
        · rw [if_pos hs]
          refine ⟨?_, ?_, ?_, ?_⟩
          · show colTokExpandList st.result.dropLast ++ [p0, s] = consumed ++ [s]
            have hdrop : st.result.dropLast = r := by
              rw [hres]
              exact List.dropLast_concat
            rw [hdrop, ← hexp2]
            simp
          · refine Or.inr ⟨p0, s, by omega, ?_⟩
            show ([p0, s] : List Int) = expandRangeJS p0 s
            rcases hs with hs1 | hs1
            · rw [hs1]
              exact (expandRangeJS_pair_up p0).symm
            · rw [hs1]
              exact (expandRangeJS_pair_down p0).symm
          · intro hcontra
            exact absurd hcontra (by simp)
          · intro hcontra
            exact absurd hcontra (by simp)
        · rw [if_neg hs]
          refine ⟨?_, Or.inl hc0, ?_, ?_⟩
          · show colTokExpandList (st.result ++ [ColTok.num s]) ++ st.coll = consumed ++ [s]
            rw [hc0, List.append_nil, colTokExpandList_append]
            have hexp3 : colTokExpandList st.result = consumed := by
              rw [← hexp, hc0, List.append_nil]
            rw [hexp3]
            simp [colTokExpandList, colTokExpand]
          · intro _
            exact Or.inr ⟨st.result, s, rfl, rfl⟩
          · intro hcontra
            exact absurd hcontra (by simp)

theorem foldl_colStep_inv (seq : List Int) : ∀ (consumed : List Int) (st : ColSt),
    ColInv consumed st → ColInv (consumed ++ seq) (seq.foldl colStep st) := by
  induction seq with
  | nil => intro consumed st h; simpa using h
  | cons s rest ih =>
    intro consumed st h
    have h1 := colStep_inv h s
    have h2 := ih (consumed ++ [s]) _ h1
    simpa [List.append_assoc] using h2

/-- Token-level round trip: expanding the compiled tokens of
`colorder.newHashVal` recovers the input sequence exactly. -/
theorem colTokExpandList_colCompress (seq : List Int) :
    colTokExpandList (colCompressTokens seq) = seq := by
  have hinit : ColInv [] ⟨[], [], none⟩ :=
    ⟨rfl, Or.inl rfl, fun _ => Or.inl ⟨rfl, rfl, rfl⟩, fun _ => ⟨rfl, rfl, rfl⟩⟩
  have hfin := foldl_colStep_inv seq [] _ hinit
  rw [List.nil_append] at hfin
  obtain ⟨hexp, hrun, -, -⟩ := hfin
  unfold colCompressTokens
  by_cases hcoll : (seq.foldl colStep ⟨[], [], none⟩).coll.length > 0
  · rw [if_pos hcoll]
    rcases hrun with h0 | ⟨a, b, hab, heq⟩
    · rw [h0] at hcoll
      simp at hcoll
    · rw [colTokExpandList_append]
      have hcomp : colTokExpandList [compileColl (seq.foldl colStep ⟨[], [], none⟩).coll]
          = (seq.foldl colStep ⟨[], [], none⟩).coll := by
        show colTokExpand (compileColl _) ++ [] = _
        rw [List.append_nil, heq]
        exact colTokExpand_compileColl hab
      rw [hcomp]
      exact hexp
  · rw [if_neg hcoll]
    have hc0 : (seq.foldl colStep ⟨[], [], none⟩).coll = [] := by
      cases hcase : (seq.foldl colStep ⟨[], [], none⟩).coll with
      | nil => rfl
      | cons x xs => rw [hcase] at hcoll; simp at hcoll
    rw [hc0, List.append_nil] at hexp
    exact hexp

/-! String-level round trip for colorder. -/

theorem splitOnChar_sep_append (sep : Char) (x y : List Char) :
    splitOnChar sep (x ++ sep :: y) = splitOnChar sep x ++ splitOnChar sep y := by
  induction x with
  | nil =>
    simp only [List.nil_append, splitOnChar]
    cases h : splitOnChar sep y with
    | nil => exact absurd h (splitOnChar_ne_nil sep y)
    | cons a b => simp
  | cons c q ih =>
    by_cases hc : c = sep
    · simp [List.cons_append, splitOnChar, List.append_eq, if_pos hc, ih]
    · simp only [List.cons_append, splitOnChar, List.append_eq, if_neg hc, ih]
      cases h : splitOnChar sep q with
      | nil => exact absurd h (splitOnChar_ne_nil sep q)
      | cons a b => simp [hc]

theorem not_mem_natToDec {a : Char} (ha : isDigitCh a = false) (n : Nat) :
    a ∉ natToDec n := by
  intro hmem
  have := natToDec_digits n a hmem
  rw [ha] at this
  exact absurd this (by simp)

theorem intToDec_nonneg {i : Int} (h : 0 ≤ i) : intToDec i = natToDec i.toNat := by
  rw [intToDec, if_neg (by omega)]

theorem not_mem_intToDec_nonneg {a : Char} (ha : isDigitCh a = false) {i : Int}
    (h : 0 ≤ i) : a ∉ intToDec i := by
  rw [intToDec_nonneg h]
  exact not_mem_natToDec ha i.toNat

theorem parseIntJS_getD_nonneg {i : Int} (h : 0 ≤ i) :
    (parseIntJS (intToDec i)).getD 0 = i := by
  rw [parseIntJS_intToDec]
  rfl

theorem parseColTok_single {i : Int} (h : 0 ≤ i) :
    parseColTok (intToDec i) = [i] := by
  rw [parseColTok]
  have hnm : '-' ∉ intToDec i := not_mem_intToDec_nonneg (by decide) h
  have hcont : (intToDec i).contains '-' = false := by simpa using hnm
  rw [hcont]
  simp only [Bool.false_eq_true, if_false]
  rw [parseIntJS_intToDec]
  rfl

/-- Expanding the dot-separated pieces of one rendered token recovers the
token's expansion, provided all its values are non-negative. -/
theorem parsePieces_tok (t : ColTok) (hnn : ∀ v ∈ colTokExpand t, 0 ≤ v) :
    ((splitOnChar '.' (renderColTok t)).map parseColTok).flatten = colTokExpand t := by
  cases t with
  | num s =>
    have hs : 0 ≤ s := hnn s (by simp [colTokExpand])
    rw [renderColTok]
    rw [splitOnChar_no_sep '.' _ (not_mem_intToDec_nonneg (by decide) hs)]
    simp [parseColTok_single hs, colTokExpand]
  | pair a b =>
    have ha : 0 ≤ a := hnn a (by simp [colTokExpand])
    have hb : 0 ≤ b := hnn b (by simp [colTokExpand])
    rw [renderColTok]
    rw [splitOnChar_append_sep '.' _ _ (not_mem_intToDec_nonneg (by decide) ha)]
    rw [splitOnChar_no_sep '.' _ (not_mem_intToDec_nonneg (by decide) hb)]
    simp [parseColTok_single, ha, hb, colTokExpand]
  | range a b =>
    have ha : 0 ≤ a := hnn a (expandRangeJS_mem_left a b)
    have hb : 0 ≤ b := hnn b (expandRangeJS_mem_right a b)
    rw [renderColTok]
    have hdot : '.' ∉ intToDec a ++ '-' :: intToDec b := by
      intro hmem
      rcases List.mem_append.mp hmem with h1 | h1
      · exact not_mem_intToDec_nonneg (by decide) ha h1
      · rcases List.mem_cons.mp h1 with h2 | h2
        · exact absurd h2 (by decide)
        · exact not_mem_intToDec_nonneg (by decide) hb h2
    rw [splitOnChar_no_sep '.' _ hdot]
    have hdash : ('-' : Char) ∈ intToDec a ++ '-' :: intToDec b := by simp
    have hcont : (intToDec a ++ '-' :: intToDec b).contains '-' = true := by
      simp
    simp only [List.map_cons, List.map_nil, parseColTok, hcont, if_true]
    rw [splitOnChar_append_sep '-' _ _ (not_mem_intToDec_nonneg (by decide) ha)]
    rw [splitOnChar_no_sep '-' _ (not_mem_intToDec_nonneg (by decide) hb)]
    simp only [List.getD_eq_getElem?_getD]
    simp only [List.getElem?_cons_zero, List.getElem?_cons_succ, Option.getD_some]
    rw [parseIntJS_intToDec, parseIntJS_intToDec]
    simp [colTokExpand]

theorem colorderParse_joinWith (toks : List ColTok) (hne : toks ≠ [])
    (hnn : ∀ t ∈ toks, ∀ v ∈ colTokExpand t, 0 ≤ v) :
    colorderParse (joinWith '.' (toks.map renderColTok)) = colTokExpandList toks := by
  induction toks with
  | nil => exact absurd rfl hne
  | cons t ts ih =>
    cases ts with
    | nil =>
      show colorderParse (renderColTok t) = _
      rw [colorderParse, parsePieces_tok t (hnn t (by simp))]
      simp [colTokExpandList]
    | cons t2 ts2 =>
      have hjoin : joinWith '.' ((t :: t2 :: ts2).map renderColTok)
          = renderColTok t ++ '.' :: joinWith '.' ((t2 :: ts2).map renderColTok) := by
        simp [joinWith]
      rw [hjoin, colorderParse, splitOnChar_sep_append, List.map_append,
        List.flatten_append, parsePieces_tok t (hnn t (by simp))]
      rw [show ((splitOnChar '.' (joinWith '.' ((t2 :: ts2).map renderColTok))).map
        parseColTok).flatten = colorderParse (joinWith '.' ((t2 :: ts2).map renderColTok))
        from rfl]
      rw [ih (by simp) (fun t' ht' => hnn t' (by simp [ht']))]
      simp [colTokExpandList]

/-- String-level round trip: `colorder.onLoad` parsing inverts
`colorder.newHashVal` on every non-empty sequence of non-negative indices. -/
theorem colorderParse_newHashVal (seq : List Int) (hne : seq ≠ [])
    (hnn : ∀ x ∈ seq, 0 ≤ x) :
    colorderParse (colorderNewHashVal seq) = seq := by
  have hexp := colTokExpandList_colCompress seq
  have htoksne : colCompressTokens seq ≠ [] := by
    intro h0
    rw [h0] at hexp
    simp only [colTokExpandList, List.map_nil, List.flatten_nil] at hexp
    exact hne hexp.symm
  have htnn : ∀ t ∈ colCompressTokens seq, ∀ v ∈ colTokExpand t, 0 ≤ v := by
    intro t ht v hv
    apply hnn
    rw [← hexp]
    simp only [colTokExpandList, List.mem_flatten]
    exact ⟨colTokExpand t, List.mem_map.mpr ⟨t, ht, rfl⟩, hv⟩
  rw [colorderNewHashVal, colorderParse_joinWith _ htoksne htnn, hexp]

/-! ### Supporting lemmas for the claim theorems -/

theorem condEntry_head {cfg : TableCfg} {st : TableState} {c : Cond} {e : List Char}
    (h : condEntry cfg st c = some e) :
    e.headD ' ' = condKey c ∧ isset cfg st c = true := by
  rw [condEntry] at h
  split at h
  · next hiss =>
    split at h
    · next v hv =>
      cases h
      exact ⟨rfl, hiss⟩
    · exact absurd h (by simp)
  · exact absurd h (by simp)

theorem jqInArray_not_mem {c : Cond} {enabled : List Cond} (h : c ∉ enabled) :
    jqInArray c enabled = -1 := by
  rw [jqInArray]
  have hnone : enabled.findIdx? (fun y => y == c) = none := by
    rw [List.findIdx?_eq_none_iff]
    intro x hx
    simp only [beq_eq_false_iff_ne, ne_eq]
    intro hxc
    exact h (hxc ▸ hx)
  rw [hnone]

theorem spliceRemove_neg_one {α : Type} (xs : List α) (h : xs ≠ []) :
    spliceRemove xs (-1) 1 = xs.dropLast := by
  have hlen : 1 ≤ xs.length := by
    cases xs with
    | nil => exact absurd rfl h
    | cons a as => simp
  rw [spliceRemove]
  simp only [if_pos (by omega : (-1 : Int) < 0)]
  have h1 : ((xs.length : Int) + -1).toNat = xs.length - 1 := by omega
  rw [h1]
  have h2 : xs.length - 1 + 1 = xs.length := by omega
  rw [h2, List.drop_length, List.append_nil, ← List.dropLast_eq_take]

theorem encodeHashEntries_all_empty {hash : List (List Char × QVal)}
    (h : ∀ tv ∈ hash, hvalLength tv.2 = 0) : encodeHashEntries hash = [] := by
  rw [encodeHashEntries]
  have hfold : ∀ (l : List (List Char × QVal)), (∀ tv ∈ l, hvalLength tv.2 = 0) →
      ∀ acc, l.foldl (fun acc tv =>
        if hvalLength tv.2 > 0 then acc ++ [tv.1 ++ '=' :: hvalRender tv.2] else acc) acc
        = acc := by
    intro l
    induction l with
    | nil => intro _ acc; rfl
    | cons tv rest ih =>
      intro hall acc
      simp only [List.foldl_cons]
      rw [if_neg (by have := hall tv (by simp); omega)]
      exact ih (fun x hx => hall x (by simp [hx])) acc
  rw [hfold _ h []]
  rfl

theorem mem_joinWith_seg (sep : Char) (parts : List (List Char)) (p : List Char)
    (hp : p ∈ parts) : containsSeg p (joinWith sep parts) := by
  induction parts with
  | nil => exact absurd hp (by simp)
  | cons x rest ih =>
    cases rest with
    | nil =>
      simp only [List.mem_singleton] at hp
      exact ⟨[], [], by simp [joinWith, hp]⟩
    | cons y ys =>
      rcases List.mem_cons.mp hp with rfl | hmem
      · exact ⟨[], sep :: joinWith sep (y :: ys), by simp [joinWith]⟩
      · obtain ⟨u, v, huv⟩ := ih hmem
        exact ⟨x ++ sep :: u, v, by simp [joinWith, huv]⟩

theorem qsUpdate_fresh (m : List (List Char × QVal)) (key : List Char)
    (v : Option (List Char)) (h : key ∉ m.map Prod.fst) :
    qsUpdate m key v
      = m ++ [(key, match v with | none => QVal.undef | some s => QVal.str s)] := by
  induction m with
  | nil => rfl
  | cons kv rest ih =>
    obtain ⟨k, val⟩ := kv
    simp only [List.map_cons, List.mem_cons, not_or] at h
    simp only [qsUpdate]
    rw [if_neg (fun hh => h.1 hh.symm), ih h.2]
    rfl

/-- Splitting a well-formed rendered fragment on `&` recovers the rendered
entries. -/
theorem splitAmp_renderFrag (entries : List (List Char × List Char))
    (hne : entries ≠ []) (hwf : ∀ e ∈ entries, WfEntry e) :
    splitOnChar '&' (renderFrag entries) = entries.map renderFragEntry := by
  apply splitOnChar_joinWith
  · simp [hne]
  · intro p hp
    obtain ⟨e, he, rfl⟩ := List.mem_map.mp hp
    obtain ⟨-, h2, -, -, h5, -⟩ := hwf e he
    intro hmem
    rcases List.mem_append.mp hmem with h | h
    · exact h2 h
    · rcases List.mem_cons.mp h with h | h
      · exact absurd h (by decide)
      · exact h5 h

/-- Splitting one rendered entry on `=` yields the id/token pair. -/
theorem splitEq_renderFragEntry (e : List Char × List Char) (hwf : WfEntry e) :
    splitOnChar '=' (renderFragEntry e) = [e.1, e.2] := by
  obtain ⟨-, -, h3, -, -, h6⟩ := hwf
  rw [renderFragEntry, splitOnChar_append_sep '=' _ _ h3, splitOnChar_no_sep '=' _ h6]

/-- `queryString` of a well-formed fragment with pairwise-distinct ids is
the evident string-valued mapping. -/
theorem queryString_renderFrag (entries : List (List Char × List Char))
    (hne : entries ≠ []) (hwf : ∀ e ∈ entries, WfEntry e)
    (hnd : (entries.map Prod.fst).Nodup) :
    queryString (renderFrag entries)
      = entries.map (fun e => (e.1, QVal.str e.2)) := by
  rw [queryString, splitAmp_renderFrag entries hne hwf]
  suffices h : ∀ (l : List (List Char × List Char)) (acc : List (List Char × QVal)),
      (∀ e ∈ l, WfEntry e) → (l.map Prod.fst).Nodup →
      (∀ e ∈ l, e.1 ∉ acc.map Prod.fst) →
      (l.map renderFragEntry).foldl
        (fun qs pairStr =>
          let pair := splitOnChar '=' pairStr
          qsUpdate qs (pair.headD []) pair[1]?) acc
        = acc ++ l.map (fun e => (e.1, QVal.str e.2)) by
    exact h entries [] hwf hnd (by simp)
  intro l
  induction l with
  | nil => intro acc _ _ _; simp
  | cons e rest ih =>
    intro acc hwf2 hnd2 hacc
    simp only [List.map_cons, List.foldl_cons]
    rw [splitEq_renderFragEntry e (hwf2 e (by simp))]
    simp only [List.headD_cons, List.getElem?_cons_zero, List.getElem?_cons_succ]
    rw [qsUpdate_fresh acc e.1 (some e.2) (hacc e (by simp))]
    have hacc2 : ∀ x ∈ rest, x.1 ∉ (acc ++ [(e.1, QVal.str e.2)]).map Prod.fst := by
      intro x hx
      simp only [List.map_append, List.map_cons, List.map_nil, List.mem_append,
        List.mem_singleton, not_or]
      refine ⟨fun hmem => hacc x (by simp [hx]) hmem, ?_⟩
      simp only [List.map_cons, List.nodup_cons] at hnd2
      intro heq
      exact hnd2.1 (heq ▸ List.mem_map.mpr ⟨x, hx, rfl⟩)
    rw [ih (acc ++ [(e.1, QVal.str e.2)]) (fun x hx => hwf2 x (by simp [hx]))
      (by simp only [List.map_cons, List.nodup_cons] at hnd2; exact hnd2.2) hacc2]
    simp

/-! ### Supporting lemmas for the encode/decode round trip -/

theorem mem_joinWith {a : Char} (sep : Char) :
    ∀ parts : List (List Char), a ∈ joinWith sep parts →
      a = sep ∨ ∃ p ∈ parts, a ∈ p
  | [] => by simp [joinWith]
  | [p] => fun h => Or.inr ⟨p, by simp, h⟩
  | p :: q :: ps => by
    intro h
    simp only [joinWith] at h
    rcases List.mem_append.mp h with h1 | h2
    · exact Or.inr ⟨p, by simp, h1⟩
    · rcases List.mem_cons.mp h2 with h3 | h4
      · exact Or.inl h3
      · rcases mem_joinWith sep (q :: ps) h4 with h5 | ⟨r, hr, har⟩
        · exact Or.inl h5
        · exact Or.inr ⟨r, List.mem_cons_of_mem p hr, har⟩

theorem joinWith_ne_nil (sep : Char) (parts : List (List Char)) (h1 : parts ≠ [])
    (h2 : ∀ p ∈ parts, p ≠ []) : joinWith sep parts ≠ [] := by
  cases parts with
  | nil => exact absurd rfl h1
  | cons p ps =>
    cases ps with
    | nil => exact h2 p (by simp)
    | cons q qs =>
      simp only [joinWith]
      simp

theorem not_mem_intToDec {a : Char} (hd : isDigitCh a = false) (hdash : a ≠ '-')
    (i : Int) : a ∉ intToDec i := by
  rw [intToDec]
  split
  · intro hmem
    rcases List.mem_cons.mp hmem with h | h
    · exact hdash h
    · exact not_mem_natToDec hd _ h
  · exact not_mem_natToDec hd _

theorem intToDec_ne_nil (i : Int) : intToDec i ≠ [] := by
  rw [intToDec]
  split
  · simp
  · exact natToDec_ne_nil _

theorem not_mem_renderColTok {a : Char} (hd : isDigitCh a = false) (hdot : a ≠ '.')
    (hdash : a ≠ '-') (t : ColTok) : a ∉ renderColTok t := by
  cases t with
  | num s => exact not_mem_intToDec hd hdash s
  | pair x y =>
    intro hmem
    simp only [renderColTok] at hmem
    rcases List.mem_append.mp hmem with h | h
    · exact not_mem_intToDec hd hdash x h
    · rcases List.mem_cons.mp h with h | h
      · exact hdot h
      · exact not_mem_intToDec hd hdash y h
  | range x y =>
    intro hmem
    simp only [renderColTok] at hmem
    rcases List.mem_append.mp hmem with h | h
    · exact not_mem_intToDec hd hdash x h
    · rcases List.mem_cons.mp h with h | h
      · exact hdash h
      · exact not_mem_intToDec hd hdash y h

theorem not_mem_colorderNewHashVal {a : Char} (hd : isDigitCh a = false)
    (hdot : a ≠ '.') (hdash : a ≠ '-') (seq : List Int) :
    a ∉ colorderNewHashVal seq := by
  intro hmem
  rcases mem_joinWith '.' _ hmem with h | ⟨p, hp, hap⟩
  · exact hdot h
  · obtain ⟨t, ht, rfl⟩ := List.mem_map.mp hp
    exact not_mem_renderColTok hd hdot hdash t hap

theorem not_mem_natToDec_join {a : Char} (hd : isDigitCh a = false) (hdot : a ≠ '.')
    (l : List Nat) : a ∉ joinWith '.' (l.map natToDec) := by
  intro hmem
  rcases mem_joinWith '.' _ hmem with h | ⟨p, hp, hap⟩
  · exact hdot h
  · obtain ⟨n, hn, rfl⟩ := List.mem_map.mp hp
    exact not_mem_natToDec hd n hap

theorem not_mem_intToDec_join {a : Char} (hd : isDigitCh a = false) (hdot : a ≠ '.')
    (hdash : a ≠ '-') (l : List Int) : a ∉ joinWith '.' (l.map intToDec) := by
  intro hmem
  rcases mem_joinWith '.' _ hmem with h | ⟨p, hp, hap⟩
  · exact hdot h
  · obtain ⟨n, hn, rfl⟩ := List.mem_map.mp hp
    exact not_mem_intToDec hd hdash n hap

theorem not_mem_colvisNewHashVal {a : Char} (hd : isDigitCh a = false)
    (hdot : a ≠ '.') (hf : a ≠ 'f') (ht : a ≠ 't') (vis : List Bool) :
    a ∉ colvisNewHashVal vis := by
  intro hmem
  simp only [colvisNewHashVal] at hmem
  split at hmem
  · rcases List.mem_cons.mp hmem with h | h
    · exact hf h
    · exact not_mem_natToDec_join hd hdot _ h
  · rcases List.mem_cons.mp hmem with h | h
    · exact ht h
    · exact not_mem_natToDec_join hd hdot _ h

theorem condOfKey_condKey (c : Cond) : condOfKey (condKey c) = some c := by
  cases c <;> rfl

theorem condEntry_total (cfg : TableCfg) (st : TableState) (c : Cond)
    (hiss : isset cfg st c = true) (hsel : c = Cond.select → st.selected ≠ []) :
    condEntry cfg st c = some (condKey c :: condLoadVal cfg st c) := by
  rw [condEntry, if_pos hiss]
  cases c
  · rfl
  · rfl
  · rfl
  · rfl
  · have h : st.scrollTop ≠ 0 := by simpa [isset] using hiss
    simp only [newHashVal, condLoadVal]
    rw [if_pos h]
    rfl
  · rfl
  · have h : ¬(st.selected.length = 0) := by simpa using hsel rfl
    simp only [newHashVal, condLoadVal]
    rw [if_neg h]
    rfl
  · rfl

theorem condEntry_not_mem {a : Char} (hd : isDigitCh a = false)
    (hu : isUnreserved a = false) (hp : a ≠ '%') (hx : hexVal? a = none)
    (hdot : a ≠ '.') (hdash : a ≠ '-') (hkeys : ∀ c' : Cond, a ≠ condKey c')
    (ht : a ≠ 't') (had : a ≠ 'a') (hdd : a ≠ 'd')
    {cfg : TableCfg} {st : TableState} {c : Cond} {e : List Char}
    (h : condEntry cfg st c = some e) : a ∉ e := by
  rw [condEntry] at h
  split at h
  · intro hmem
    cases c <;> simp only [newHashVal] at h
    · cases h
      rcases List.mem_cons.mp hmem with h1 | h1
      · exact hkeys Cond.search h1
      · exact encode_not_mem hu hp hx _ h1
    · cases h
      rcases List.mem_cons.mp hmem with h1 | h1
      · exact hkeys Cond.length h1
      · exact not_mem_intToDec hd hdash _ h1
    · cases h
      rcases List.mem_cons.mp hmem with h1 | h1
      · exact hkeys Cond.page h1
      · exact not_mem_intToDec hd hdash _ h1
    · cases h
      rcases List.mem_cons.mp hmem with h1 | h1
      · exact hkeys Cond.colvis h1
      · exact not_mem_colvisNewHashVal hd hdot (hkeys Cond.search) ht _ h1
    · split at h
      · next v heq =>
        cases h
        rcases List.mem_cons.mp hmem with h1 | h1
        · exact hkeys Cond.scroller h1
        · split at heq
          · cases heq
            exact not_mem_intToDec hd hdash _ h1
          · exact absurd heq (by simp)
      · exact absurd h (by simp)
    · cases h
      rcases List.mem_cons.mp hmem with h1 | h1
      · exact hkeys Cond.colorder h1
      · exact not_mem_colorderNewHashVal hd hdot hdash _ h1
    · split at h
      · next v heq =>
        cases h
        rcases List.mem_cons.mp hmem with h1 | h1
        · exact hkeys Cond.select h1
        · split at heq
          · exact absurd heq (by simp)
          · cases heq
            exact not_mem_intToDec_join hd hdot hdash _ h1
      · exact absurd h (by simp)
    · cases h
      rcases List.mem_cons.mp hmem with h1 | h1
      · exact hkeys Cond.order h1
      · rcases List.mem_cons.mp h1 with h2 | h2
        · cases hdir : (st.order.headD (0, Dir.asc)).2 <;> rw [hdir] at h2
          · exact had h2
          · exact hdd h2
        · exact not_mem_natToDec hd _ h2
  · exact absurd h (by simp)

theorem tableHashEntries_map (cfg : TableCfg) (st : TableState) :
    ∀ cs : List Cond,
    (∀ c ∈ cs, condEntry cfg st c = some (condKey c :: condLoadVal cfg st c)) →
    tableHashEntries cfg st cs = cs.map (fun c => condKey c :: condLoadVal cfg st c) := by
  intro cs
  induction cs with
  | nil => intro _; rfl
  | cons c rest ih =>
    intro h
    simp only [tableHashEntries, List.filterMap_cons] at *
    rw [h c (List.mem_cons_self c rest)]
    simp only [List.map_cons]
    congr 1
    exact ih (fun x hx => h x (List.mem_cons_of_mem c hx))

/-- Each condition's `onLoad` writes only its own component of the table
state: every other component is untouched. -/
theorem applyCond_frame (cfg : TableCfg) (s : TableState) (c : Cond) (v : List Char) :
    (c ≠ Cond.search → (applyCond cfg s c v).searchStr = s.searchStr)
    ∧ (c ≠ Cond.length → (applyCond cfg s c v).pageLen = s.pageLen)
    ∧ (c ≠ Cond.page → (applyCond cfg s c v).page = s.page)
    ∧ (c ≠ Cond.colvis → (applyCond cfg s c v).colVis = s.colVis)
    ∧ (c ≠ Cond.colorder → (applyCond cfg s c v).colOrder = s.colOrder)
    ∧ (c ≠ Cond.select → (applyCond cfg s c v).selected = s.selected)
    ∧ (c ≠ Cond.order → (applyCond cfg s c v).order = s.order) := by
  cases c <;>
    refine ⟨fun h => ?_, fun h => ?_, fun h => ?_, fun h => ?_, fun h => ?_,
      fun h => ?_, fun h => ?_⟩ <;>
    first
      | exact absurd rfl h
      | (simp only [applyCond]
         repeat' split
         all_goals rfl)

theorem applyCond_search_eq (cfg : TableCfg) (s : TableState) (str : List Char) :
    (applyCond cfg s Cond.search (encodeURIComponentJS str)).searchStr = str := by
  simp only [applyCond, decode_encode, Option.getD_some]
  split
  · rfl
  · next h => exact not_ne_iff.mp h

theorem applyCond_length_eq (cfg : TableCfg) (s : TableState) (n : Int) :
    (applyCond cfg s Cond.length (intToDec n)).pageLen = n := by
  simp only [applyCond, parseIntJS_intToDec, Option.getD_some]

theorem applyCond_page_eq (cfg : TableCfg) (s : TableState) {n : Int} (h : n ≠ 0) :
    (applyCond cfg s Cond.page (intToDec n)).page = n := by
  simp only [applyCond, parseIntJS_intToDec]
  rw [if_pos h]

theorem applyCond_order_eq (cfg : TableCfg) (s : TableState)
    {ord : List (Nat × Dir)} (h : ord ≠ []) :
    (applyCond cfg s Cond.order
        (dirChar (ord.headD (0, Dir.asc)).2 :: natToDec (ord.headD (0, Dir.asc)).1)).order
      = ord.take 1 := by
  obtain ⟨⟨n, d⟩, rest, rfl⟩ := List.exists_cons_of_ne_nil h
  simp only [List.headD_cons]
  cases d <;> simp [applyCond, dirChar, parseIntJS_natToDec]

theorem applyCond_colorder_eq (cfg : TableCfg) (s : TableState) {ord : List Int}
    (hcr : cfg.hasColReorder = true) (hne : ord ≠ []) (hnn : ∀ x ∈ ord, 0 ≤ x) :
    (applyCond cfg s Cond.colorder (colorderNewHashVal ord)).colOrder = ord := by
  simp only [applyCond, hcr, if_true, colorderParse_newHashVal ord hne hnn]
  split
  · rfl
  · next h => exact (not_ne_iff.mp h).symm

theorem applyCond_select_eq (cfg : TableCfg) (s : TableState) {sel : List Int}
    (hne : sel ≠ []) :
    (applyCond cfg s Cond.select (joinWith '.' (sel.map intToDec))).selected
      = if cfg.selectStyle = SelStyle.multi then sel else sel.take 1 := by
  have hvne : joinWith '.' (sel.map intToDec) ≠ [] :=
    joinWith_ne_nil '.' _ (by simpa using hne)
      (by
        rintro p hp
        obtain ⟨i, -, rfl⟩ := List.mem_map.mp hp
        exact intToDec_ne_nil i)
  have hsplit : splitOnChar '.' (joinWith '.' (sel.map intToDec)) = sel.map intToDec :=
    splitOnChar_joinWith '.' _ (by simpa using hne)
      (by
        rintro p hp
        obtain ⟨i, -, rfl⟩ := List.mem_map.mp hp
        exact not_mem_intToDec (by decide) (by decide) i)
  have hrows : (sel.map intToDec).map (fun t => (parseIntJS t).getD 0) = sel := by
    rw [List.map_map]
    conv_rhs => rw [show sel = sel.map id from (List.map_id sel).symm]
    exact List.map_congr_left (fun i _ => by
      simp [Function.comp, parseIntJS_intToDec])
  simp only [applyCond]
  rw [if_neg hvne, hsplit, hrows]
  by_cases hm : cfg.selectStyle = SelStyle.multi
  · rw [if_pos hm, if_pos hm]
  · rw [if_neg hm, if_neg hm]
    obtain ⟨x, rest, rfl⟩ := List.exists_cons_of_ne_nil hne
    rw [if_pos (by simp)]
    simp

theorem mem_colvisIdx (vis : List Bool) (b : Bool) (i : Nat) :
    i ∈ colvisIdx vis b ↔ i < vis.length ∧ vis.getD i false = b := by
  simp [colvisIdx, List.mem_filter, List.mem_range, beq_iff_eq]

theorem splitJoin_contains (idxs : List Nat) (i : Nat) :
    (splitOnChar '.' (joinWith '.' (idxs.map natToDec))).contains (natToDec i)
      = decide (i ∈ idxs) := by
  cases hx : idxs with
  | nil =>
    show (splitOnChar '.' (joinWith '.' [])).contains (natToDec i)
      = decide (i ∈ ([] : List Nat))
    have h1 : (splitOnChar '.' (joinWith '.' ([] : List (List Char)))) = [[]] := rfl
    rw [h1]
    have h2 : ([[]] : List (List Char)).contains (natToDec i) = false := by
      cases hnd : natToDec i with
      | nil => exact absurd hnd (natToDec_ne_nil i)
      | cons c cs => rfl
    rw [h2]
    simp
  | cons j js =>
    rw [← hx]
    have hxne : idxs ≠ [] := by rw [hx]; simp
    rw [splitOnChar_joinWith '.' _ (by simpa using hxne)
      (fun p hp => by
        obtain ⟨k, -, rfl⟩ := List.mem_map.mp hp
        exact not_mem_natToDec (by decide) k)]
    by_cases hmem : i ∈ idxs
    · have h1 : (idxs.map natToDec).elem (natToDec i) = true :=
        List.elem_iff.mpr (List.mem_map_of_mem natToDec hmem)
      show (idxs.map natToDec).elem (natToDec i) = decide (i ∈ idxs)
      rw [h1, decide_eq_true hmem]
    · have h1 : (idxs.map natToDec).elem (natToDec i) = false := by
        rw [← Bool.not_eq_true]
        intro hc
        obtain ⟨k, hk, he⟩ := List.mem_map.mp (List.elem_iff.mp hc)
        exact hmem (natToDec_injective he ▸ hk)
      show (idxs.map natToDec).elem (natToDec i) = decide (i ∈ idxs)
      rw [h1, decide_eq_false hmem]

theorem applyCond_colvis_eq (cfg : TableCfg) (s : TableState) (vis : List Bool)
    (hlen : s.colVis.length = vis.length) :
    (applyCond cfg s Cond.colvis (colvisNewHashVal vis)).colVis = vis := by
  have key : ∀ (c0 : Char) (b : Bool), (c0 = 't' ∧ b = true) ∨ (c0 = 'f' ∧ b = false) →
      (applyCond cfg s Cond.colvis
          (c0 :: joinWith '.' ((colvisIdx vis b).map natToDec))).colVis = vis := by
    rintro c0 b (⟨rfl, rfl⟩ | ⟨rfl, rfl⟩)
    · simp only [applyCond]
      rw [if_pos (Or.inl trivial), hlen]
      apply List.ext_getElem (by simp)
      intro i hi1 hi2
      simp only [List.getElem_map, List.getElem_range]
      rw [if_pos trivial, splitJoin_contains]
      have hmem : (i ∈ colvisIdx vis true) ↔ vis[i] = true := by
        rw [mem_colvisIdx]
        constructor
        · rintro ⟨hlt, hgd⟩
          rwa [List.getD_eq_getElem vis false hi2] at hgd
        · intro hv
          exact ⟨hi2, by rwa [List.getD_eq_getElem vis false hi2]⟩
      by_cases hv : vis[i] = true
      · rw [decide_eq_true (hmem.mpr hv), hv]
      · rw [decide_eq_false (fun hc => hv (hmem.mp hc))]
        exact (Bool.not_eq_true _).mp hv |>.symm
    · simp only [applyCond]
      rw [if_pos (Or.inr trivial), hlen]
      apply List.ext_getElem (by simp)
      intro i hi1 hi2
      simp only [List.getElem_map, List.getElem_range]
      rw [if_neg (by decide), splitJoin_contains]
      have hmem : (i ∈ colvisIdx vis false) ↔ vis[i] = false := by
        rw [mem_colvisIdx]
        constructor
        · rintro ⟨hlt, hgd⟩
          rwa [List.getD_eq_getElem vis false hi2] at hgd
        · intro hv
          exact ⟨hi2, by rwa [List.getD_eq_getElem vis false hi2]⟩
      by_cases hv : vis[i] = false
      · rw [decide_eq_true (hmem.mpr hv), hv]
        rfl
      · rw [decide_eq_false (fun hc => hv (hmem.mp hc))]
        simp only [Bool.not_false]
        exact ((Bool.not_eq_false _).mp hv).symm
  by_cases hc : (colvisIdx vis true).length ≥ (colvisIdx vis false).length
  · have h1 : colvisNewHashVal vis
        = 'f' :: joinWith '.' ((colvisIdx vis false).map natToDec) := by
      simp only [colvisNewHashVal]
      rw [if_pos hc]
    rw [h1]
    exact key 'f' false (Or.inr ⟨rfl, rfl⟩)
  · have h1 : colvisNewHashVal vis
        = 't' :: joinWith '.' ((colvisIdx vis true).map natToDec) := by
      simp only [colvisNewHashVal]
      rw [if_neg hc]
    rw [h1]
    exact key 't' true (Or.inl ⟨rfl, rfl⟩)

theorem foldApplyLoad_spec (cfg : TableCfg) (st : TableState) :
    ∀ cs : List Cond, cs.Nodup →
    (Cond.page ∈ cs → st.page ≠ 0) →
    (Cond.colorder ∈ cs →
      cfg.hasColReorder = true ∧ st.colOrder ≠ [] ∧ ∀ x ∈ st.colOrder, 0 ≤ x) →
    (Cond.select ∈ cs → st.selected ≠ []) →
    (Cond.order ∈ cs → st.order ≠ []) →
    ∀ s : TableState, s.colVis.length = st.colVis.length →
    ((Cond.search ∈ cs → (foldApplyLoad cfg st cs s).searchStr = st.searchStr)
      ∧ (Cond.search ∉ cs → (foldApplyLoad cfg st cs s).searchStr = s.searchStr))
    ∧ ((Cond.length ∈ cs → (foldApplyLoad cfg st cs s).pageLen = st.pageLen)
      ∧ (Cond.length ∉ cs → (foldApplyLoad cfg st cs s).pageLen = s.pageLen))
    ∧ ((Cond.page ∈ cs → (foldApplyLoad cfg st cs s).page = st.page)
      ∧ (Cond.page ∉ cs → (foldApplyLoad cfg st cs s).page = s.page))
    ∧ ((Cond.colvis ∈ cs → (foldApplyLoad cfg st cs s).colVis = st.colVis)
      ∧ (Cond.colvis ∉ cs → (foldApplyLoad cfg st cs s).colVis = s.colVis))
    ∧ ((Cond.colorder ∈ cs → (foldApplyLoad cfg st cs s).colOrder = st.colOrder)
      ∧ (Cond.colorder ∉ cs → (foldApplyLoad cfg st cs s).colOrder = s.colOrder))
    ∧ ((Cond.select ∈ cs → (foldApplyLoad cfg st cs s).selected
          = (if cfg.selectStyle = SelStyle.multi then st.selected
             else st.selected.take 1))
      ∧ (Cond.select ∉ cs → (foldApplyLoad cfg st cs s).selected = s.selected))
    ∧ ((Cond.order ∈ cs → (foldApplyLoad cfg st cs s).order = st.order.take 1)
      ∧ (Cond.order ∉ cs → (foldApplyLoad cfg st cs s).order = s.order)) := by
  intro cs
  induction cs with
  | nil =>
    intro _ _ _ _ _ s _
    simp [foldApplyLoad]
  | cons c rest ih =>
    intro hnd hpage hco hsel hord s hlen
    obtain ⟨hcnotin, hndrest⟩ := List.nodup_cons.mp hnd
    have hstep : foldApplyLoad cfg st (c :: rest) s
        = foldApplyLoad cfg st rest (applyCond cfg s c (condLoadVal cfg st c)) := rfl
    set s1 := applyCond cfg s c (condLoadVal cfg st c) with hs1
    have hframe := applyCond_frame cfg s c (condLoadVal cfg st c)
    have hlen1 : s1.colVis.length = st.colVis.length := by
      by_cases hc : c = Cond.colvis
      · subst hc
        have hv : s1.colVis = st.colVis := by
          rw [hs1]
          exact applyCond_colvis_eq cfg s st.colVis hlen
        rw [hv]
      · rw [hs1, hframe.2.2.2.1 hc, hlen]
    have IH := ih hndrest (fun h => hpage (List.mem_cons_of_mem c h))
      (fun h => hco (List.mem_cons_of_mem c h))
      (fun h => hsel (List.mem_cons_of_mem c h))
      (fun h => hord (List.mem_cons_of_mem c h)) s1 hlen1
    rw [hstep]
    have Hsearch :
        (Cond.search ∈ c :: rest →
          (foldApplyLoad cfg st rest s1).searchStr = st.searchStr)
        ∧ (Cond.search ∉ c :: rest →
          (foldApplyLoad cfg st rest s1).searchStr = s.searchStr) := by
      constructor
      · intro hmem
        rcases List.mem_cons.mp hmem with heq | hmem'
        · subst heq
          rw [IH.1.2 hcnotin, hs1]
          exact applyCond_search_eq cfg s st.searchStr
        · exact IH.1.1 hmem'
      · intro hnmem
        have h1 : c ≠ Cond.search := fun hc => hnmem (hc ▸ List.mem_cons_self c rest)
        have h2 : Cond.search ∉ rest := fun hc => hnmem (List.mem_cons_of_mem c hc)
        rw [IH.1.2 h2, hs1, hframe.1 h1]
    have Hlength :
        (Cond.length ∈ c :: rest →
          (foldApplyLoad cfg st rest s1).pageLen = st.pageLen)
        ∧ (Cond.length ∉ c :: rest →
          (foldApplyLoad cfg st rest s1).pageLen = s.pageLen) := by
      constructor
      · intro hmem
        rcases List.mem_cons.mp hmem with heq | hmem'
        · subst heq
          rw [IH.2.1.2 hcnotin, hs1]
          exact applyCond_length_eq cfg s st.pageLen
        · exact IH.2.1.1 hmem'
      · intro hnmem
        have h1 : c ≠ Cond.length := fun hc => hnmem (hc ▸ List.mem_cons_self c rest)
        have h2 : Cond.length ∉ rest := fun hc => hnmem (List.mem_cons_of_mem c hc)
        rw [IH.2.1.2 h2, hs1, hframe.2.1 h1]
    have Hpage :
        (Cond.page ∈ c :: rest → (foldApplyLoad cfg st rest s1).page = st.page)
        ∧ (Cond.page ∉ c :: rest → (foldApplyLoad cfg st rest s1).page = s.page) := by
      constructor
      · intro hmem
        rcases List.mem_cons.mp hmem with heq | hmem'
        · subst heq
          rw [IH.2.2.1.2 hcnotin, hs1]
          exact applyCond_page_eq cfg s (hpage (List.mem_cons_self _ rest))
        · exact IH.2.2.1.1 hmem'
      · intro hnmem
        have h1 : c ≠ Cond.page := fun hc => hnmem (hc ▸ List.mem_cons_self c rest)
        have h2 : Cond.page ∉ rest := fun hc => hnmem (List.mem_cons_of_mem c hc)
        rw [IH.2.2.1.2 h2, hs1, hframe.2.2.1 h1]
    have Hcolvis :
        (Cond.colvis ∈ c :: rest → (foldApplyLoad cfg st rest s1).colVis = st.colVis)
        ∧ (Cond.colvis ∉ c :: rest →
          (foldApplyLoad cfg st rest s1).colVis = s.colVis) := by
      constructor
      · intro hmem
        rcases List.mem_cons.mp hmem with heq | hmem'
        · subst heq
          rw [IH.2.2.2.1.2 hcnotin, hs1]
          exact applyCond_colvis_eq cfg s st.colVis hlen
        · exact IH.2.2.2.1.1 hmem'
      · intro hnmem
        have h1 : c ≠ Cond.colvis := fun hc => hnmem (hc ▸ List.mem_cons_self c rest)
        have h2 : Cond.colvis ∉ rest := fun hc => hnmem (List.mem_cons_of_mem c hc)
        rw [IH.2.2.2.1.2 h2, hs1, hframe.2.2.2.1 h1]
    have Hcolorder :
        (Cond.colorder ∈ c :: rest →
          (foldApplyLoad cfg st rest s1).colOrder = st.colOrder)
        ∧ (Cond.colorder ∉ c :: rest →
          (foldApplyLoad cfg st rest s1).colOrder = s.colOrder) := by
      constructor
      · intro hmem
        rcases List.mem_cons.mp hmem with heq | hmem'
        · subst heq
          obtain ⟨hcr, hcne, hcnn⟩ := hco (List.mem_cons_self _ rest)
          rw [IH.2.2.2.2.1.2 hcnotin, hs1]
          exact applyCond_colorder_eq cfg s hcr hcne hcnn
        · exact IH.2.2.2.2.1.1 hmem'
      · intro hnmem
        have h1 : c ≠ Cond.colorder := fun hc => hnmem (hc ▸ List.mem_cons_self c rest)
        have h2 : Cond.colorder ∉ rest := fun hc => hnmem (List.mem_cons_of_mem c hc)
        rw [IH.2.2.2.2.1.2 h2, hs1, hframe.2.2.2.2.1 h1]
    have Hselect :
        (Cond.select ∈ c :: rest → (foldApplyLoad cfg st rest s1).selected
          = (if cfg.selectStyle = SelStyle.multi then st.selected
             else st.selected.take 1))
        ∧ (Cond.select ∉ c :: rest →
          (foldApplyLoad cfg st rest s1).selected = s.selected) := by
      constructor
      · intro hmem
        rcases List.mem_cons.mp hmem with heq | hmem'
        · subst heq
          have hselne := hsel (List.mem_cons_self _ rest)
          have hval : condLoadVal cfg st Cond.select
              = joinWith '.' (st.selected.map intToDec) := by
            simp only [condLoadVal, newHashVal]
            rw [if_neg (by simpa using hselne)]
            rfl
          rw [IH.2.2.2.2.2.1.2 hcnotin, hs1, hval]
          exact applyCond_select_eq cfg s hselne
        · exact IH.2.2.2.2.2.1.1 hmem'
      · intro hnmem
        have h1 : c ≠ Cond.select := fun hc => hnmem (hc ▸ List.mem_cons_self c rest)
        have h2 : Cond.select ∉ rest := fun hc => hnmem (List.mem_cons_of_mem c hc)
        rw [IH.2.2.2.2.2.1.2 h2, hs1, hframe.2.2.2.2.2.1 h1]
    have Horder :
        (Cond.order ∈ c :: rest →
          (foldApplyLoad cfg st rest s1).order = st.order.take 1)
        ∧ (Cond.order ∉ c :: rest →
          (foldApplyLoad cfg st rest s1).order = s.order) := by
      constructor
      · intro hmem
        rcases List.mem_cons.mp hmem with heq | hmem'
        · subst heq
          rw [IH.2.2.2.2.2.2.2 hcnotin, hs1]
          exact applyCond_order_eq cfg s (hord (List.mem_cons_self _ rest))
        · exact IH.2.2.2.2.2.2.1 hmem'
      · intro hnmem
        have h1 : c ≠ Cond.order := fun hc => hnmem (hc ▸ List.mem_cons_self c rest)
        have h2 : Cond.order ∉ rest := fun hc => hnmem (List.mem_cons_of_mem c hc)
        rw [IH.2.2.2.2.2.2.2 h2, hs1, hframe.2.2.2.2.2.2 h1]
    exact ⟨Hsearch, Hlength, Hpage, Hcolvis, Hcolorder, Hselect, Horder⟩

/-- Folding `processEntry` over this table's own `key :: value` entries is
the fold of the per-condition `onLoad` handlers. -/
theorem foldEntries_map (cfg : TableCfg) (enabled : List Cond)
    (vfun : Cond → List Char) :
    ∀ (cs : List Cond) (s : TableState), (∀ c ∈ cs, c ∈ jqUnique enabled) →
    (cs.map (fun c => condKey c :: vfun c)).foldl (processEntry cfg enabled) s
      = cs.foldl (fun t c => applyCond cfg t c (vfun c)) s := by
  intro cs
  induction cs with
  | nil => intro s _; rfl
  | cons c rest ih =>
    intro s h
    simp only [List.map_cons, List.foldl_cons]
    rw [show processEntry cfg enabled s (condKey c :: vfun c)
        = applyCond cfg s c (vfun c) by
      simp only [processEntry, condOfKey_condKey]
      rw [if_pos (h c (List.mem_cons_self c rest))]]
    exact ih _ (fun x hx => h x (List.mem_cons_of_mem c hx))

/-- Rebuilding from an empty fragment keeps nothing: only this table's
entry is rendered. -/
theorem structureHashFrag_nil (tid tok : List Char) :
    structureHashFrag [] tid tok = encodeHashEntries [(tid, QVal.str tok)] := rfl

theorem encodeHashEntries_single (tid tok : List Char) (h : tok ≠ []) :
    encodeHashEntries [(tid, QVal.str tok)] = tid ++ '=' :: tok := by
  rw [encodeHashEntries]
  simp only [List.foldl_cons, List.foldl_nil]
  rw [if_pos (show hvalLength (QVal.str tok) > 0 from List.length_pos.mpr h)]
  rfl

theorem hashFold_entries (tid : List Char) :
    ∀ (entries : List (List Char × List Char)) (acc : List (List Char × QVal)),
    (∀ e ∈ entries, WfEntry e) →
    (entries.map (fun e => (e.1, QVal.str e.2))).foldl
      (fun h tc => if tc.1 = [] ∧ qvalFalsy tc.2 then h
        else if tc.1 ≠ tid then h ++ [(tc.1, jsOrEmpty tc.2)] else h) acc
    = acc ++ (entries.filter (fun e => decide (e.1 ≠ tid))).map
        (fun e => (e.1, QVal.str e.2)) := by
  intro entries
  induction entries with
  | nil => intro acc _; simp
  | cons e rest ih =>
    intro acc hwf
    obtain ⟨h1, -, -, -, -, -⟩ := hwf e (by simp)
    simp only [List.map_cons, List.foldl_cons, List.filter_cons]
    rw [if_neg (by rintro ⟨h0, -⟩; exact h1 h0)]
    by_cases htid : e.1 = tid
    · rw [if_neg (by simpa using htid), if_neg (by simp [htid])]
      exact ih acc (fun x hx => hwf x (by simp [hx]))
    · rw [if_pos htid, if_pos (by simpa using htid)]
      rw [ih (acc ++ [(e.1, jsOrEmpty (QVal.str e.2))]) (fun x hx => hwf x (by simp [hx]))]
      simp [jsOrEmpty]

theorem urlFold_entries (entries : List (List Char × List Char))
    (hwf : ∀ e ∈ entries, e.2 ≠ []) :
    ∀ acc : List (List Char),
    (entries.map (fun e => (e.1, QVal.str e.2))).foldl
      (fun acc tv => if hvalLength tv.2 > 0 then acc ++ [tv.1 ++ '=' :: hvalRender tv.2]
        else acc) acc
    = acc ++ entries.map renderFragEntry := by
  induction entries with
  | nil => intro acc; simp
  | cons e rest ih =>
    intro acc
    have h2 := hwf e (by simp)
    simp only [List.map_cons, List.foldl_cons]
    rw [if_pos (by
      simp only [hvalLength]
      cases hc : e.2 with
      | nil => exact absurd hc h2
      | cons a as => simp)]
    rw [ih (fun x hx => hwf x (by simp [hx])) (acc ++ [e.1 ++ '=' :: hvalRender (QVal.str e.2)])]
    simp [hvalRender, renderFragEntry]

/-- Characterization of the fragment rebuild on a well-formed fragment:
other tables' entries are kept verbatim in order, this table's entry is
replaced by the fresh token (dropped if empty). -/
theorem structureHashFrag_renderFrag (entries : List (List Char × List Char))
    (tid tok : List Char) (hne : entries ≠ [])
    (hwf : ∀ e ∈ entries, WfEntry e) (hnd : (entries.map Prod.fst).Nodup) :
    structureHashFrag (renderFrag entries) tid tok
      = renderFrag ((entries.filter (fun e => decide (e.1 ≠ tid)))
          ++ (if tok = [] then [] else [(tid, tok)])) := by
  simp only [structureHashFrag]
  rw [queryString_renderFrag entries hne hwf hnd]
  rw [hashFold_entries tid entries [] hwf]
  rw [encodeHashEntries, List.nil_append, List.foldl_append]
  rw [urlFold_entries _ (fun x hx => (hwf x (List.mem_of_mem_filter hx)).2.2.2.1) []]
  simp only [List.foldl_cons, List.foldl_nil, List.nil_append]
  by_cases htok : tok = []
  · subst htok
    rw [if_neg (by simp [hvalLength])]
    simp [renderFrag]
  · rw [if_pos (by
      simp only [hvalLength]
      cases hc : tok with
      | nil => exact absurd hc htok
      | cons a as => simp)]
    rw [if_neg htok]
    simp [renderFrag, hvalRender, renderFragEntry]

/-! ### Claim theorems -/

/-- C2: writing a fresh token for table `tid` into a well-formed fragment
holding two or more distinct tables' entries rebuilds the fragment as: all
other tables' entries verbatim, in order, followed by `tid`'s new entry —
and in particular every other table's raw `id=token` entry occurs
byte-identically in the written fragment. -/
theorem fragment_isolation (entries : List (List Char × List Char))
    (tid tok : List Char)
    (hwf : ∀ e ∈ entries, WfEntry e)
    (hnd : (entries.map Prod.fst).Nodup)
    (hlen : 2 ≤ entries.length) :
    structureHashFrag (renderFrag entries) tid tok
      = renderFrag ((entries.filter (fun e => decide (e.1 ≠ tid)))
          ++ (if tok = [] then [] else [(tid, tok)]))
    ∧ ∀ e ∈ entries, e.1 ≠ tid →
        containsSeg (renderFragEntry e)
          (structureHashWritten (renderFrag entries) tid tok) := by
  have hne : entries ≠ [] := by
    intro h0
    rw [h0] at hlen
    simp at hlen
  have hchar := structureHashFrag_renderFrag entries tid tok hne hwf hnd
  refine ⟨hchar, ?_⟩
  intro e he hee
  have hkept : e ∈ entries.filter (fun x => decide (x.1 ≠ tid)) :=
    List.mem_filter.mpr ⟨he, by simpa using hee⟩
  have hseg : containsSeg (renderFragEntry e)
      (structureHashFrag (renderFrag entries) tid tok) := by
    rw [hchar, renderFrag]
    exact mem_joinWith_seg '&' _ _
      (List.mem_map.mpr ⟨e, List.mem_append.mpr (Or.inl hkept), rfl⟩)
  have hfragne : structureHashFrag (renderFrag entries) tid tok ≠ [] := by
    obtain ⟨u, v, huv⟩ := hseg
    intro h0
    rw [h0] at huv
    have : renderFragEntry e ≠ [] := by simp [renderFragEntry]
    simp only [renderFragEntry] at huv
    exact absurd huv.symm (by simp)
  rw [structureHashWritten, hashOrPlaceholder, if_neg hfragne]
  exact hseg

/-- C2 (witness): a fragment with tables `a` and `b`; rewriting `a`'s
token keeps `b=l25` byte-identical in the written fragment. -/
theorem fragment_isolation_witness :
    containsSeg (renderFragEntry ("b".toList, "l25".toList))
      (structureHashWritten
        (renderFrag [("a".toList, "oa3".toList), ("b".toList, "l25".toList)])
        "a".toList "od1".toList) :=
  (fragment_isolation [("a".toList, "oa3".toList), ("b".toList, "l25".toList)]
    "a".toList "od1".toList (by decide) (by decide) (by decide)).2
    ("b".toList, "l25".toList) (by decide) (by decide)

/-- C6: page `0`, page length equal to the configured default, and an empty
search string each fail their `isset` test, so no `p`/`l`/`f` entry ever
appears in the table hash; and a page length of 25 against default 10
produces exactly the entry `l25`. -/
theorem default_suppression (cfg : TableCfg) (st : TableState)
    (hp : st.page = 0) (hl : st.pageLen = effPageLength cfg)
    (hf : st.searchStr = []) :
    isset cfg st Cond.page = false
    ∧ isset cfg st Cond.length = false
    ∧ isset cfg st Cond.search = false
    ∧ (∀ enabled : List Cond, ∀ e ∈ tableHashEntries cfg st enabled,
        e.headD ' ' ≠ 'p' ∧ e.headD ' ' ≠ 'l' ∧ e.headD ' ' ≠ 'f')
    ∧ (∀ st' : TableState, st'.pageLen = 25 → effPageLength cfg = 10 →
        condEntry cfg st' Cond.length = some ('l' :: '2' :: '5' :: [])) := by
  refine ⟨by simp [isset, hp], by simp [isset, hl], by simp [isset, hf], ?_, ?_⟩
  · intro enabled e he
    obtain ⟨c, hc, hce⟩ := List.mem_filterMap.mp he
    obtain ⟨hhead, hiss⟩ := condEntry_head hce
    rw [hhead]
    cases c
    · rw [isset, hf] at hiss
      simp at hiss
    · rw [isset, hl] at hiss
      simp at hiss
    · rw [isset, hp] at hiss
      simp at hiss
    all_goals simp [condKey]
  · intro st' hl' hd
    rw [condEntry]
    rw [show isset cfg st' Cond.length = true by simp [isset, hl', hd]]
    rw [show newHashVal cfg st' Cond.length = some (intToDec 25) by
      rw [newHashVal, hl']]
    rfl

/-- C6 (witness): on a fresh two-column table with default length 10, the
length `isset` is false; with length 25 it yields the `l25` entry. -/
theorem default_suppression_witness :
    isset cfgC6 (freshState cfgC6) Cond.length = false
    ∧ condEntry cfgC6 st25C6 Cond.length = some ('l' :: '2' :: '5' :: []) :=
  ⟨(default_suppression cfgC6 (freshState cfgC6) rfl rfl rfl).2.1,
   (default_suppression cfgC6 (freshState cfgC6) rfl rfl rfl).2.2.2.2
     st25C6 rfl rfl⟩

/-- C3 (counterexample): constructing the key-to-name map with two
conditions sharing the key `f` does not fail: `_keyMap` completes and
silently maps `f` to the later condition, losing the earlier one.  No
error is thrown anywhere in the construction. -/
theorem keyMap_duplicate_key_completes :
    keyMapJS [("search".toList, 'f'), ("select".toList, 'f')] = [('f', "select".toList)] := by
  decide

/-- C3 (amended): registry construction never fails fast on duplicate keys
— a duplicate key would silently overwrite (last wins).  For the shipped
registry the eight key characters are pairwise distinct, so `_keyMap`
yields exactly one entry per condition, in registry order. -/
theorem keyMap_registry_distinct :
    (registryPairs.map Prod.snd).Nodup
    ∧ keyMapJS registryPairs = registryPairs.map (fun nc => (nc.2, nc.1)) := by
  exact ⟨by decide, by decide⟩

/-- C4: the colvis serialized value always encodes the list whose length
is not larger: prefix `f` with the hidden indices when the visible list is
at least as long, else prefix `t` with the visible indices; concretely,
5 columns with columns 0,1 hidden encode as token entry `vf0.1`, and 5
columns with 4 hidden encode the single visible index as `t4`. -/
theorem colvis_shorter_list :
    (∀ vis : List Bool, colvisIdx vis false ≠ [] →
      (colvisNewHashVal vis = 'f' :: joinWith '.' ((colvisIdx vis false).map natToDec)
          ∧ (colvisIdx vis false).length ≤ (colvisIdx vis true).length)
      ∨ (colvisNewHashVal vis = 't' :: joinWith '.' ((colvisIdx vis true).map natToDec)
          ∧ (colvisIdx vis true).length < (colvisIdx vis false).length))
    ∧ colvisNewHashVal [false, false, true, true, true] = "f0.1".toList
    ∧ condKey Cond.colvis :: colvisNewHashVal [false, false, true, true, true]
        = "vf0.1".toList
    ∧ colvisNewHashVal [false, false, false, false, true] = "t4".toList := by
  refine ⟨?_, by decide, by decide, by decide⟩
  intro vis h
  by_cases hc : (colvisIdx vis true).length ≥ (colvisIdx vis false).length
  · left
    constructor
    · simp only [colvisNewHashVal]
      rw [if_pos hc]
    · omega
  · right
    constructor
    · simp only [colvisNewHashVal]
      rw [if_neg hc]
    · omega

/-- C4 (witness): instantiated at the two-column table with column 0
hidden. -/
theorem colvis_shorter_list_witness :
    (colvisNewHashVal [false, true]
        = 'f' :: joinWith '.' ((colvisIdx [false, true] false).map natToDec)
        ∧ (colvisIdx [false, true] false).length ≤ (colvisIdx [false, true] true).length)
    ∨ (colvisNewHashVal [false, true]
        = 't' :: joinWith '.' ((colvisIdx [false, true] true).map natToDec)
        ∧ (colvisIdx [false, true] true).length < (colvisIdx [false, true] false).length) :=
  colvis_shorter_list.1 [false, true] (by decide)

/-- C5 (counterexample): the code does not compress `[9,1,2,3,4,8,6,5,0]`
to `9.1-4.8-5.0` (8,6,5 is not a step-1 run), and decompressing
`9.1-4.8-5.0` expands `8-5` to `8,7,6,5`, which does not reproduce the
sequence. -/
theorem colorder_claimed_example_false :
    colorderNewHashVal [9, 1, 2, 3, 4, 8, 6, 5, 0] ≠ "9.1-4.8-5.0".toList
    ∧ colorderParse "9.1-4.8-5.0".toList ≠ [9, 1, 2, 3, 4, 8, 6, 5, 0]
    ∧ colorderParse "9.1-4.8-5.0".toList = [9, 1, 2, 3, 4, 8, 7, 6, 5, 0] := by
  exact ⟨by decide, by decide, by decide⟩

/-- C5 (amended): `[9,1,2,3,4,8,6,5,0]` compresses to `9.1-4.8.6.5.0`
(the maximal run `1,2,3,4` collapses to `1-4`, the two-element run `6,5`
stays `6.5`), that string decompresses back to the original, and for every
non-empty sequence of distinct non-negative indices decompression inverts
compression exactly. -/
theorem colorder_roundtrip :
    colorderNewHashVal [9, 1, 2, 3, 4, 8, 6, 5, 0] = "9.1-4.8.6.5.0".toList
    ∧ colorderParse "9.1-4.8.6.5.0".toList = [9, 1, 2, 3, 4, 8, 6, 5, 0]
    ∧ ∀ seq : List Int, seq ≠ [] → seq.Nodup → (∀ x ∈ seq, 0 ≤ x) →
        colorderParse (colorderNewHashVal seq) = seq := by
  refine ⟨by decide, by decide, ?_⟩
  intro seq h1 _ h3
  exact colorderParse_newHashVal seq h1 h3

/-- C5 (witness): the round trip instantiated at the concrete descending
order `[2, 1, 0]`. -/
theorem colorder_roundtrip_witness :
    colorderParse (colorderNewHashVal [2, 1, 0]) = [2, 1, 0] :=
  colorder_roundtrip.2.2 [2, 1, 0] (by decide) (by decide) (by decide)

/-- C7: whenever every entry of the composed table-to-token mapping is
empty, the encoder output is empty and the written fragment is the single
placeholder `_`, never the empty string; in particular any call whose
rebuilt fragment is empty writes `_`. -/
theorem empty_fragment_placeholder :
    (∀ hash : List (List Char × QVal), (∀ tv ∈ hash, hvalLength tv.2 = 0) →
      hashOrPlaceholder (encodeHashEntries hash) = ['_'])
    ∧ (∀ frag tableId tok : List Char, structureHashFrag frag tableId tok = [] →
      structureHashWritten frag tableId tok = ['_'] ∧
        structureHashWritten frag tableId tok ≠ []) := by
  constructor
  · intro hash h
    rw [encodeHashEntries_all_empty h]
    rfl
  · intro frag tableId tok h
    rw [structureHashWritten, hashOrPlaceholder, if_pos h]
    exact ⟨rfl, by simp⟩

/-- C7 (witness): instantiated at a one-entry mapping with an empty token
and at the empty fragment with an empty token. -/
theorem empty_fragment_placeholder_witness :
    hashOrPlaceholder (encodeHashEntries [("t".toList, QVal.str [])]) = ['_']
    ∧ structureHashWritten [] "t".toList [] = ['_'] :=
  ⟨empty_fragment_placeholder.1 [("t".toList, QVal.str [])] (by decide),
   (empty_fragment_placeholder.2 [] "t".toList [] (by decide)).1⟩

/-- C8: with an empty enabled-condition set, `getEnabledConditions`
reports no conditions and both `attachEvents` and `detachEvents` throw
(they never silently no-op). -/
theorem attach_detach_empty_throws (enabled : List Cond) (h : enabled = []) :
    getEnabledConditions enabled = none
    ∧ attachEvents enabled
        = Except.error "No enabled conditions to attach to events".toList
    ∧ detachEvents enabled
        = Except.error "No enabled conditions to attach to events".toList := by
  subst h
  exact ⟨rfl, rfl, rfl⟩

/-- C8 (witness): instantiated at the empty list. -/
theorem attach_detach_empty_throws_witness :
    getEnabledConditions []
        = none
    ∧ attachEvents []
        = Except.error "No enabled conditions to attach to events".toList
    ∧ detachEvents []
        = Except.error "No enabled conditions to attach to events".toList :=
  attach_detach_empty_throws [] rfl

/-- C9: the constructor guard is dead code.  As written,
`! dtSettings instanceof Api` applies `instanceof` to the boolean
`!dtSettings`, which is never an `Api` instance, so the conjunction is
false for every argument and the constructor never throws — in particular
not on a plain non-table object, where the guard the comment describes
would fire. -/
theorem constructor_guard_never_fires :
    constructorThrows (DtArg.other true) = false
    ∧ constructorThrowsIntended (DtArg.other true) = true
    ∧ ∀ arg : DtArg, constructorThrows arg = false := by
  refine ⟨rfl, rfl, ?_⟩
  intro arg
  cases arg <;> rfl

/-- C10 (counterexample): with an *empty* enabled set, disabling a
registered-but-not-enabled condition leaves the set unchanged
(`splice(-1, 1)` on an empty array removes nothing), so the claim's
universally quantified statement fails for a controller with no enabled
conditions. -/
theorem disable_not_enabled_empty_noop :
    disableCondition [] Cond.order = [] := by decide

/-- C10 (amended): for every controller whose enabled set is non-empty,
disabling a registered condition that is not in the enabled set does not
no-op: `$.inArray` yields `-1` and `splice(-1, 1)` removes the last —
most recently enabled — condition. -/
theorem disable_not_enabled_drops_last {enabled : List Cond} {c : Cond}
    (hne : enabled ≠ []) (hnm : c ∉ enabled) :
    disableCondition enabled c = enabled.dropLast
    ∧ disableCondition enabled c ≠ enabled := by
  have h1 : disableCondition enabled c = enabled.dropLast := by
    rw [disableCondition, jqInArray_not_mem hnm]
    exact spliceRemove_neg_one enabled hne
  refine ⟨h1, ?_⟩
  rw [h1]
  intro hcontra
  have hlen := congrArg List.length hcontra
  rw [List.length_dropLast] at hlen
  have : 1 ≤ enabled.length := by
    cases enabled with
    | nil => exact absurd rfl hne
    | cons a as => simp
  omega

/-- C10 (witness): with `search` and `page` enabled, disabling the
never-enabled `order` silently removes `page`. -/
theorem disable_not_enabled_drops_last_witness :
    disableCondition [Cond.search, Cond.page] Cond.order = [Cond.search]
    ∧ disableCondition [Cond.search, Cond.page] Cond.order ≠ [Cond.search, Cond.page] := by
  have h := @disable_not_enabled_drops_last [Cond.search, Cond.page] Cond.order
    (by decide) (by decide)
  exact ⟨by rw [h.1]; decide, h.2⟩

/-- C1 (counterexample): round-trip idempotence fails for multi-column
ordering — `order.newHashVal` serializes only `order()[0]`, so of the saved
two-column ordering only the first entry survives the encode/decode cycle. -/
theorem roundtrip_order_counterexample :
    stC1.order = [(1, Dir.asc), (2, Dir.desc)]
    ∧ (roundTrip cfgC6 stC1 [Cond.order]).map (fun s => s.order)
        = some [(1, Dir.asc)]
    ∧ (roundTrip cfgC6 stC1 [Cond.order]).map (fun s => s.order)
        ≠ some stC1.order := by
  refine ⟨rfl, ?_, ?_⟩ <;> decide

/-- C1 (amended): the encode/decode round trip onto a freshly initialized
identical table reproduces every enabled condition's saved value — search
text, page length, page, column visibility, reconstructed column order and
selected rows — except that of the ordering only the first column survives
(`st.order.take 1`). -/
theorem roundtrip_reproduces_state (cfg : TableCfg) (st : TableState)
    (enabled : List Cond)
    (hne : enabled ≠ []) (hnd : enabled.Nodup)
    (hiss : ∀ c ∈ enabled, isset cfg st c = true)
    (htid1 : cfg.tableId ≠ []) (htid2 : '&' ∉ cfg.tableId) (htid3 : '=' ∉ cfg.tableId)
    (hvis : cfg.initVis.length = st.colVis.length)
    (hco : Cond.colorder ∈ enabled → st.colOrder ≠ [] ∧ ∀ x ∈ st.colOrder, 0 ≤ x)
    (hseli : Cond.select ∈ enabled → st.selected ≠ [])
    (hsels : Cond.select ∈ enabled → cfg.selectStyle ≠ SelStyle.multi →
      st.selected.length ≤ 1) :
    ∃ st', roundTrip cfg st enabled = some st'
      ∧ (Cond.search ∈ enabled → st'.searchStr = st.searchStr)
      ∧ (Cond.length ∈ enabled → st'.pageLen = st.pageLen)
      ∧ (Cond.page ∈ enabled → st'.page = st.page)
      ∧ (Cond.colvis ∈ enabled → st'.colVis = st.colVis)
      ∧ (Cond.colorder ∈ enabled → st'.colOrder = st.colOrder)
      ∧ (Cond.select ∈ enabled → st'.selected = st.selected)
      ∧ (Cond.order ∈ enabled → st'.order = st.order.take 1) := by
  have hdedup : jqUnique enabled = enabled := by
    rw [jqUnique]
    exact List.dedup_eq_self.mpr hnd
  have htot : ∀ c ∈ enabled,
      condEntry cfg st c = some (condKey c :: condLoadVal cfg st c) :=
    fun c hc => condEntry_total cfg st c (hiss c hc) (fun he => hseli (he ▸ hc))
  have hentries : tableHashEntries cfg st enabled
      = enabled.map (fun c => condKey c :: condLoadVal cfg st c) :=
    tableHashEntries_map cfg st enabled htot
  have hentne : enabled.map (fun c => condKey c :: condLoadVal cfg st c) ≠ [] := by
    simpa using hne
  have heachne : ∀ e ∈ enabled.map (fun c => condKey c :: condLoadVal cfg st c),
      e ≠ [] := by
    rintro e he
    obtain ⟨c, -, rfl⟩ := List.mem_map.mp he
    simp
  have htokne :
      joinWith ':' (enabled.map (fun c => condKey c :: condLoadVal cfg st c)) ≠ [] :=
    joinWith_ne_nil ':' _ hentne heachne
  have hsafe : ∀ a : Char, isDigitCh a = false → isUnreserved a = false → a ≠ '%' →
      hexVal? a = none → a ≠ '.' → a ≠ '-' → (∀ c' : Cond, a ≠ condKey c') → a ≠ 't' →
      a ≠ 'a' → a ≠ 'd' →
      ∀ e ∈ enabled.map (fun c => condKey c :: condLoadVal cfg st c), a ∉ e := by
    intro a h1 h2 h3 h4 h5 h6 h7 h8 h9 h10 e he
    obtain ⟨c, hc, rfl⟩ := List.mem_map.mp he
    exact condEntry_not_mem h1 h2 h3 h4 h5 h6 h7 h8 h9 h10 (htot c hc)
  have hamp :
      '&' ∉ joinWith ':' (enabled.map (fun c => condKey c :: condLoadVal cfg st c)) := by
    intro hmem
    rcases mem_joinWith ':' _ hmem with h | ⟨e, he, hae⟩
    · exact absurd h (by decide)
    · exact hsafe '&' (by decide) (by decide) (by decide) (by decide) (by decide)
        (by decide) (fun c' => by cases c' <;> decide) (by decide) (by decide)
        (by decide) e he hae
  have heqn :
      '=' ∉ joinWith ':' (enabled.map (fun c => condKey c :: condLoadVal cfg st c)) := by
    intro hmem
    rcases mem_joinWith ':' _ hmem with h | ⟨e, he, hae⟩
    · exact absurd h (by decide)
    · exact hsafe '=' (by decide) (by decide) (by decide) (by decide) (by decide)
        (by decide) (fun c' => by cases c' <;> decide) (by decide) (by decide)
        (by decide) e he hae
  have hcolon : ∀ e ∈ enabled.map (fun c => condKey c :: condLoadVal cfg st c),
      ':' ∉ e :=
    hsafe ':' (by decide) (by decide) (by decide) (by decide) (by decide) (by decide)
      (fun c' => by cases c' <;> decide) (by decide) (by decide) (by decide)
  set token := joinWith ':' (enabled.map (fun c => condKey c :: condLoadVal cfg st c))
    with htoken
  have hq : queryString (cfg.tableId ++ '=' :: token)
      = [(cfg.tableId, QVal.str token)] := by
    have hwf1 : WfEntry (cfg.tableId, token) := ⟨htid1, htid2, htid3, htokne, hamp, heqn⟩
    have h0 := queryString_renderFrag [(cfg.tableId, token)] (by simp)
      (by
        rintro e he
        rw [List.mem_singleton] at he
        subst he
        exact hwf1)
      (by simp)
    simpa [renderFrag, renderFragEntry, joinWith] using h0
  have hwrite : structureHashWrite cfg st enabled []
      = some (cfg.tableId ++ '=' :: token) := by
    rw [structureHashWrite]
    rw [show getEnabledConditions enabled = some enabled by
      rw [getEnabledConditions, if_pos (by simpa [List.length_pos] using hne), hdedup]]
    show some (structureHashWritten [] cfg.tableId
        (joinWith ':' (tableHashEntries cfg st enabled)))
      = some (cfg.tableId ++ '=' :: token)
    rw [hentries, ← htoken]
    rw [structureHashWritten, structureHashFrag_nil,
      encodeHashEntries_single _ _ htokne, hashOrPlaceholder]
    rw [if_neg (by simp)]
  have hproc : processHashStr cfg enabled (freshState cfg) (cfg.tableId ++ '=' :: token)
      = foldApplyLoad cfg st enabled (freshState cfg) := by
    rw [processHashStr, hq]
    simp only [List.foldl_cons, List.foldl_nil]
    rw [if_neg (show ¬(cfg.tableId ≠ cfg.tableId) from fun h => h rfl)]
    rw [show splitOnChar ':' token
        = enabled.map (fun c => condKey c :: condLoadVal cfg st c) by
      rw [htoken]
      exact splitOnChar_joinWith ':' _ hentne hcolon]
    rw [foldEntries_map cfg enabled (condLoadVal cfg st) enabled (freshState cfg)
      (fun c hc => by rw [hdedup]; exact hc)]
    rfl
  have hpage : Cond.page ∈ enabled → st.page ≠ 0 := fun h => by
    have h2 := hiss _ h
    simpa [isset] using h2
  have hord : Cond.order ∈ enabled → st.order ≠ [] := fun h => by
    have h2 := hiss _ h
    simp [isset] at h2
    exact h2.1
  have hco' : Cond.colorder ∈ enabled →
      cfg.hasColReorder = true ∧ st.colOrder ≠ [] ∧ ∀ x ∈ st.colOrder, 0 ≤ x :=
    fun h => by
      have h2 := hiss _ h
      simp [isset] at h2
      exact ⟨h2.1, (hco h).1, (hco h).2⟩
  have hfold := foldApplyLoad_spec cfg st enabled hnd hpage hco' hseli hord
    (freshState cfg) hvis
  refine ⟨foldApplyLoad cfg st enabled (freshState cfg), ?_, hfold.1.1, hfold.2.1.1,
    hfold.2.2.1.1, hfold.2.2.2.1.1, hfold.2.2.2.2.1.1, ?_, hfold.2.2.2.2.2.2.1⟩
  · rw [roundTrip, hwrite]
    show some (processHashStr cfg enabled (freshState cfg) (cfg.tableId ++ '=' :: token))
      = some (foldApplyLoad cfg st enabled (freshState cfg))
    rw [hproc]
  · intro h
    rw [hfold.2.2.2.2.2.1.1 h]
    by_cases hm : cfg.selectStyle = SelStyle.multi
    · rw [if_pos hm]
    · rw [if_neg hm]
      exact List.take_of_length_le (hsels h hm)

/-- C1 (witness): the amended round trip at the concrete table `cfgC6` in
state `stC1` with search, length, page, colvis and order enabled. -/
theorem roundtrip_reproduces_state_witness :
    ∃ st', roundTrip cfgC6 stC1
        [Cond.search, Cond.length, Cond.page, Cond.colvis, Cond.order] = some st'
      ∧ (Cond.search ∈ [Cond.search, Cond.length, Cond.page, Cond.colvis, Cond.order] →
          st'.searchStr = stC1.searchStr)
      ∧ (Cond.length ∈ [Cond.search, Cond.length, Cond.page, Cond.colvis, Cond.order] →
          st'.pageLen = stC1.pageLen)
      ∧ (Cond.page ∈ [Cond.search, Cond.length, Cond.page, Cond.colvis, Cond.order] →
          st'.page = stC1.page)
      ∧ (Cond.colvis ∈ [Cond.search, Cond.length, Cond.page, Cond.colvis, Cond.order] →
          st'.colVis = stC1.colVis)
      ∧ (Cond.colorder ∈ [Cond.search, Cond.length, Cond.page, Cond.colvis, Cond.order] →
          st'.colOrder = stC1.colOrder)
      ∧ (Cond.select ∈ [Cond.search, Cond.length, Cond.page, Cond.colvis, Cond.order] →
          st'.selected = stC1.selected)
      ∧ (Cond.order ∈ [Cond.search, Cond.length, Cond.page, Cond.colvis, Cond.order] →
          st'.order = stC1.order.take 1) :=
  roundtrip_reproduces_state cfgC6 stC1
    [Cond.search, Cond.length, Cond.page, Cond.colvis, Cond.order]
    (by decide) (by decide) (by decide) (by decide) (by decide) (by decide)
    (by decide) (by decide) (by decide) (by decide)

end KC
